import Mathlib

/-!
Verification development for the parsers repository: a shallow embedding of
the log-ingestion engine (log_parser.py), the static code-analysis engine
(code_parser.py) and the workflow-discovery engine (precompute_workflows.py),
together with theorems settling the specification claims.

Conventions of the embedding:
* Python strings are Lean `String`s; Python string comparison (used by
  `sorted(..., key=timestamp)`) is the lexicographic order on the underlying
  `List Char`, which coincides with Python's code-point comparison.
* Python dicts that are used in insertion order are association lists with
  overwrite-in-place insertion (`dictInsert`), matching CPython dict
  semantics (insertion order of first occurrence is preserved, assignment to
  an existing key keeps its position).
* Python's stable `sorted` is `List.insertionSort`, which is stable.
* Fallible constructs that the code recovers from (an AST argument the
  matcher cannot interpret, a caught `json.JSONDecodeError`) are `Option`;
  an exception the code does not catch (the `AttributeError` raised while
  field-accessing a decoded non-record line) aborts the computation and is
  an `Except.error`.
-/

/-- Insert into an association list with Python-dict semantics: if the key is
present its value is overwritten in place, otherwise the binding is appended. -/
def dictInsert {α : Type} [DecidableEq α] {β : Type} (k : α) (v : β) :
    List (α × β) → List (α × β)
  | [] => [(k, v)]
  | (k', v') :: rest =>
    if k' = k then (k, v) :: rest else (k', v') :: dictInsert k v rest

/-- Lookup in an association list (first binding wins, as in a Python dict
where keys are unique). -/
def dictFind {α : Type} [DecidableEq α] {β : Type} (k : α) :
    List (α × β) → Option β
  | [] => none
  | (k', v') :: rest => if k' = k then some v' else dictFind k rest

/-- Keep the first occurrence of each element, dropping later duplicates
(the order in which CPython yields the keys of a dict built by repeated
assignment). -/
def firstDedup {α : Type} [DecidableEq α] : List α → List α :=
  go []
where
  go (seen : List α) : List α → List α
    | [] => []
    | a :: rest => if a ∈ seen then go seen rest else a :: go (a :: seen) rest

/-- Substring test (Python `in` on strings), on the underlying char lists. -/
def strContains (hay needle : String) : Bool :=
  hay.data.tails.any (fun suf => needle.data.isPrefixOf suf)

/-- Python `str.lower` (ASCII case folding suffices for the identifiers the
parsers manipulate). -/
def lowerStr (s : String) : String := ⟨s.data.map Char.toLower⟩

/-- Python `str.upper`. -/
def upperStr (s : String) : String := ⟨s.data.map Char.toUpper⟩

/-- Python `str.replace(needle, repl)`: replace every non-overlapping
occurrence, scanning left to right.  The fuel argument (length of the
remaining text) only serves termination; it is never exhausted. -/
def replaceAllAux (needle repl : List Char) : Nat → List Char → List Char
  | 0, l => l
  | _ + 1, [] => []
  | fuel + 1, c :: rest =>
    if needle ≠ [] ∧ needle.isPrefixOf (c :: rest) then
      repl ++ replaceAllAux needle repl fuel ((c :: rest).drop needle.length)
    else
      c :: replaceAllAux needle repl fuel rest

/-- Python `str.replace` on `String`. -/
def replaceAll (s needle repl : String) : String :=
  ⟨replaceAllAux needle.data repl.data s.data.length s.data⟩

/-- Python `sep.join(items)`. -/
def joinSep (sep : String) : List String → String
  | [] => ""
  | [a] => a
  | a :: rest => a ++ sep ++ joinSep sep rest

namespace LogIngest

/-- A parsed log event (log_parser.py, `parse_log_file`): the dict appended
to `self.log_events`.  `metadata` holds the `json.dumps(extra_data)` text,
carried opaquely. -/
structure Event where
  timestamp : String
  service : String
  level : String
  traceId : String
  orderId : String
  function : String
  message : String
  errorCode : String
  errorType : String
  exception : String
  durationMs : Option Int
  metadata : String
deriving DecidableEq, Repr

/-- The fields of one decoded JSON log record (`json.loads` of a line),
with `extra_data` flattened to the three fields the parser reads and the
raw `json.dumps(extra_data)` text. -/
structure JsonRecord where
  timestamp : Option String
  level : Option String
  message : Option String
  trace_id : Option String
  order_id : Option String
  exception : Option String
  error_code : Option String
  error_type : Option String
  duration_ms : Option Int
  extraRaw : String
deriving DecidableEq, Repr

/-- One physical line of a trace log file, abstracted to the outcome of
stripping, `json.loads` and the subsequent field accesses:
* `blank` — empty after stripping (`if not line: continue`);
* `malformed` — `json.loads` raises `json.JSONDecodeError` (the only
  exception the `except` clause catches);
* `nonRecord` — `json.loads` succeeds but the value is not a well-typed
  record: a non-dict (`null`, a number, a list, ...), or a dict whose
  `message` value is not a string, or whose `extra_data` value is not a
  dict — the attribute accesses `log_entry.get` / `message.startswith` /
  `extra_data.get` then raise an uncaught `AttributeError`;
* `record j` — a well-typed record. -/
inductive Line where
  | blank : Line
  | malformed : Line
  | nonRecord : Line
  | record : JsonRecord → Line
deriving DecidableEq, Repr

/-- Extraction of the bracketed function label from a message
(`if message.startswith('[') and ']' in message: message[1:message.index(']')]`). -/
def functionLabel (msg : String) : String :=
  match msg.data with
  | '[' :: rest => if rest.any (fun c => c = ']') then ⟨rest.takeWhile (fun c => c ≠ ']')⟩ else ""
  | _ => ""

/-- The event built from one decoded record (`parse_log_file` body). -/
def buildEvent (serviceName traceId : String) (j : JsonRecord) : Event :=
  { timestamp := j.timestamp.getD ""
    service := serviceName
    level := j.level.getD ""
    traceId := j.trace_id.getD traceId
    orderId := j.order_id.getD ""
    function := functionLabel (j.message.getD "")
    message := j.message.getD ""
    errorCode := j.error_code.getD ""
    errorType := j.error_type.getD ""
    exception := j.exception.getD ""
    durationMs := j.duration_ms
    metadata := j.extraRaw }

/-- `LogParser.parse_log_file`: lines are processed in order.  A blank line
is skipped; a `json.JSONDecodeError` is caught, warned about and the line
skipped; a well-typed record yields one event.  But the `except` clause
catches only `json.JSONDecodeError`: a line that decodes to a non-record
raises an uncaught `AttributeError`, which propagates and aborts the whole
run (modeled as `Except.error`). -/
def parse_log_file (serviceName traceId : String) : List Line → Except String (List Event)
  | [] => .ok []
  | Line.blank :: rest => parse_log_file serviceName traceId rest
  | Line.malformed :: rest => parse_log_file serviceName traceId rest
  | Line.nonRecord :: _ => .error "AttributeError"
  | Line.record j :: rest =>
    (parse_log_file serviceName traceId rest).map
      (fun evs => buildEvent serviceName traceId j :: evs)

/-- The directory walk of `parse_trace_logs` / `parse_service_logs`,
abstracted to the discovered list of (service, traceId, lines) files:
events of all files are accumulated in discovery order, and an uncaught
exception in any file aborts the remaining files as well. -/
def ingestFiles : List (String × String × List Line) → Except String (List Event)
  | [] => .ok []
  | f :: fs =>
    match parse_log_file f.1 f.2.1 f.2.2 with
    | .error e => .error e
    | .ok evs => (ingestFiles fs).map (fun more => evs ++ more)

/-- A `next_log` relationship as built by `create_temporal_relationships`. -/
structure LogRel where
  source : String
  target : String
  rtype : String
  description : String
deriving DecidableEq, Repr

/-- The unique key `{traceId}_{timestamp}_{service}` used for events. -/
def eventKey (e : Event) : String :=
  e.traceId ++ "_" ++ e.timestamp ++ "_" ++ e.service

/-- Comparison used by `sorted(events, key=lambda e: e['timestamp'])`:
Python compares the timestamp strings lexicographically. -/
def tsLe (a b : Event) : Prop := a.timestamp.data ≤ b.timestamp.data

instance : DecidableRel tsLe := fun a b =>
  inferInstanceAs (Decidable (a.timestamp.data ≤ b.timestamp.data))

instance : IsTotal Event tsLe :=
  ⟨fun a b => le_total a.timestamp.data b.timestamp.data⟩

instance : IsTrans Event tsLe :=
  ⟨fun _ _ _ h h' => le_trans h h'⟩

/-- Python's `sorted` is a stable sort; `List.insertionSort` is stable. -/
def sortEvents (es : List Event) : List Event := es.insertionSort tsLe

/-- The timestamp comparison lifted to (original position, event) pairs:
`tsLe` on the events, ignoring positions. -/
def pairTsLe (p q : Nat × Event) : Prop := tsLe p.2 q.2

instance : DecidableRel pairTsLe := fun p q =>
  inferInstanceAs (Decidable (tsLe p.2 q.2))

/-- The order that characterizes a stable timestamp sort: strictly earlier
timestamp, or equal timestamps and not-later original position. -/
def tsIdxLe (p q : Nat × Event) : Prop :=
  p.2.timestamp.data < q.2.timestamp.data ∨
    (p.2.timestamp.data = q.2.timestamp.data ∧ p.1 ≤ q.1)

instance : DecidableRel tsIdxLe := fun p q =>
  inferInstanceAs (Decidable
    (p.2.timestamp.data < q.2.timestamp.data ∨
      (p.2.timestamp.data = q.2.timestamp.data ∧ p.1 ≤ q.1)))

instance : IsTotal (Nat × Event) tsIdxLe :=
  ⟨fun p q => by
    rcases lt_trichotomy p.2.timestamp.data q.2.timestamp.data with h | h | h
    · exact Or.inl (Or.inl h)
    · rcases Nat.le_total p.1 q.1 with h' | h'
      · exact Or.inl (Or.inr ⟨h, h'⟩)
      · exact Or.inr (Or.inr ⟨h.symm, h'⟩)
    · exact Or.inr (Or.inl h)⟩

instance : IsTrans (Nat × Event) tsIdxLe :=
  ⟨fun p q w hpq hqw => by
    rcases hpq with h1 | ⟨h1, h1'⟩ <;> rcases hqw with h2 | ⟨h2, h2'⟩
    · exact Or.inl (h1.trans h2)
    · exact Or.inl (h2 ▸ h1)
    · exact Or.inl (h1 ▸ h2)
    · exact Or.inr ⟨h1.trans h2, h1'.trans h2'⟩⟩

/-- The events of one trace, in arrival order (`events_by_trace` grouping:
events are appended in iteration order). -/
def eventsFor (traceId : String) (events : List Event) : List Event :=
  events.filter (fun e => e.traceId = traceId)

/-- The trace ids in first-arrival order (iteration order of the
`events_by_trace` dict). -/
def traceIdsOf (events : List Event) : List String :=
  firstDedup (events.map (fun e => e.traceId))

/-- The `next_log` relationship between two consecutive events of a trace. -/
def mkNextRel (traceId : String) (a b : Event) : LogRel :=
  { source := eventKey a
    target := eventKey b
    rtype := "next_log"
    description := "Next log in trace " ++ traceId }

/-- The relationships of one trace: one edge per consecutive pair of the
timestamp-sorted event list. -/
def chainRels (traceId : String) (chain : List Event) : List LogRel :=
  (chain.zip chain.tail).map (fun p => mkNextRel traceId p.1 p.2)

/-- `LogParser.create_temporal_relationships`. -/
def create_temporal_relationships (events : List Event) : List LogRel :=
  (traceIdsOf events).flatMap
    (fun tid => chainRels tid (sortEvents (eventsFor tid events)))

/-- `LogParser.store_to_database`, event-insertion phase.  Row `i` of the
`LogEvents` table receives the auto-increment identity `i`.  The parser then
re-selects `TOP 1 $node_id ... WHERE timestamp AND service AND traceId ...
ORDER BY id DESC`, which (on a table holding exactly this run's rows) returns
the just-inserted row, and stores it in `event_id_map` under the key string
`{traceId}_{timestamp}_{service}` — overwriting any earlier event whose key
collides. -/
def event_id_map (events : List Event) : List (String × Nat) :=
  events.enum.foldl (fun m p => dictInsert (eventKey p.2) p.1 m) []

/-- `LogParser.store_to_database`, relationship-insertion phase: each
`next_log` relationship whose source and target keys are both present in
`event_id_map` becomes one edge between the mapped node identities; a
relationship with a missing endpoint is skipped. -/
def store_to_database (events : List Event) : List (Nat × Nat) :=
  (create_temporal_relationships events).filterMap
    (fun r =>
      match dictFind r.source (event_id_map events),
          dictFind r.target (event_id_map events) with
      | some a, some b => some (a, b)
      | _, _ => none)

/-- The consecutive pairs of each trace's in-memory temporal chain, with each
event named by its position in `events` (equivalently, by the database
identity its own insertion generated). -/
def chainIndexPairs (events : List Event) : List (Nat × Nat) :=
  (traceIdsOf events).flatMap
    (fun tid =>
      let chain := sortEvents (eventsFor tid events)
      (chain.zip chain.tail).map
        (fun p => (events.findIdx (fun e => e = p.1), events.findIdx (fun e => e = p.2))))

end LogIngest

namespace CodeGraph

/-- The fragment of the Python abstract syntax tree that code_parser.py
inspects.  Field order of each constructor mirrors the `_fields` order of the
corresponding `ast` node class, which fixes the order in which
`ast.iter_child_nodes` yields children.  `functionDef` keeps the parameter
names (the `args.arg` strings); the `arguments` node itself carries no call
expressions in the analyzed sources and is not walked separately.  Constants
are string constants (the only ones the parser reads).  Line numbers are kept
on call nodes (`child.lineno`). -/
inductive PyAst where
  | module (body : List PyAst)
  | functionDef (name : String) (params : List String) (body : List PyAst)
      (decorators : List PyAst)
  | classDef (name : String) (bases : List String) (body : List PyAst)
  | assign (targets : List PyAst) (value : PyAst)
  | exprStmt (value : PyAst)
  | ret (value : PyAst)
  | call (func : PyAst) (args : List PyAst) (lineno : Nat)
  | pyName (id : String)
  | pyAttribute (value : PyAst) (attr : String)
  | strConst (value : String)
  | joinedStr (values : List PyAst)
  | formattedValue (value : PyAst)
  | binOpAdd (left : PyAst) (right : PyAst)

namespace PyAst

/-- `ast.iter_child_nodes`, restricted to the embedded fragment: children in
field order (for `FunctionDef`: body before decorator_list; for `ClassDef`:
bases, then body; for `Call`: func, then args; for `Assign`: targets, then
value). -/
def children : PyAst → List PyAst
  | .module body => body
  | .functionDef _ _ body decorators => body ++ decorators
  | .classDef _ bases body => bases.map PyAst.pyName ++ body
  | .assign targets value => targets ++ [value]
  | .exprStmt value => [value]
  | .ret value => [value]
  | .call func args _ => func :: args
  | .pyName _ => []
  | .pyAttribute value _ => [value]
  | .strConst _ => []
  | .joinedStr values => values
  | .formattedValue value => [value]
  | .binOpAdd left right => [left, right]

mutual

/-- A size measure dominating the `children` list, for the walk's fuel. -/
def nodeSize : PyAst → Nat
  | .module body => 1 + listSize body
  | .functionDef _ _ body decorators => 1 + listSize body + listSize decorators
  | .classDef _ bases body => 1 + bases.length + listSize body
  | .assign targets value => 1 + listSize targets + nodeSize value
  | .exprStmt value => 1 + nodeSize value
  | .ret value => 1 + nodeSize value
  | .call func args _ => 1 + nodeSize func + listSize args
  | .pyName _ => 1
  | .pyAttribute value _ => 1 + nodeSize value
  | .strConst _ => 1
  | .joinedStr values => 1 + listSize values
  | .formattedValue value => 1 + nodeSize value
  | .binOpAdd left right => 1 + nodeSize left + nodeSize right

/-- Total size of a list of nodes. -/
def listSize : List PyAst → Nat
  | [] => 0
  | a :: rest => nodeSize a + listSize rest

end

/-- `ast.walk`: breadth-first traversal with a FIFO queue (`todo.popleft()`
then `todo.extend(iter_child_nodes(node))`).  The fuel argument only serves
termination and is never exhausted when it starts at `listSize`
(see `walkQueue_fuel`). -/
def walkQueue : Nat → List PyAst → List PyAst
  | 0, _ => []
  | _ + 1, [] => []
  | fuel + 1, n :: todo => n :: walkQueue fuel (todo ++ children n)

/-- `ast.walk(node)`. -/
def walk (n : PyAst) : List PyAst := walkQueue (listSize [n]) [n]

end PyAst

/-- A code entity (the dict appended to `self.code_nodes`).  `snippet` (the
exact source span) depends on raw source text that the embedding abstracts
away; no claim depends on it. -/
structure CodeNode where
  name : String
  type : String
  parameters : Option String
  apiEndpoint : Option String
  apiMethod : Option String
  serviceName : String
  filePath : String
  summary : String
  snippet : String
deriving DecidableEq, Repr

/-- A relationship (the dict appended to `self.relationships`).  The wall
clock `timestamp` field is not modeled.  Optional fields default to absent,
mirroring keys that are only present on some relationship kinds. -/
structure Rel where
  sourceName : String
  sourceType : String
  sourceService : String
  targetName : Option String
  targetType : String
  targetService : Option String
  relationshipType : String
  description : String
  urlPattern : Option String := none
  endpoint : Option String := none
  callOrder : Option Nat := none
  lineNumber : Option Nat := none
deriving DecidableEq, Repr

/-- An entry of the endpoint registry `self.api_endpoints`. -/
structure EndpointInfo where
  service : String
  function : String
  method : Option String
deriving DecidableEq, Repr

/-- The mutable state of a `CodeParser` run. -/
structure ParserState where
  codeNodes : List CodeNode := []
  relationships : List Rel := []
  apiEndpoints : List (String × EndpointInfo) := []
  serviceUrls : List (String × String) := []
deriving Repr

/-- `parsing.skip_functions` of the built-in default configuration. -/
def skipFunctions : List String := ["__init__", "__str__", "__repr__"]

/-- `parsing.skip_classes` of the built-in default configuration. -/
def skipClasses : List String := []

/-- `parsing.skip_base_classes` of the built-in default configuration. -/
def skipBaseClasses : List String := ["Enum", "BaseModel"]

/-- The decorator names of the enabled web frameworks (fastapi, flask). -/
def webDecorators : List String :=
  ["app.get", "app.post", "app.put", "app.delete", "app.route"]

/-- `service_communication.http_client_functions.function_names`. -/
def httpClientFunctions : List String :=
  ["call_service", "requests.get", "requests.post"]

/-- The noise set of `extract_local_calls`
(`self.http_client_functions | {...}`). -/
def localCallNoise : List String :=
  httpClientFunctions ++
    ["get_trace_id", "get_trace_logger", "info", "debug", "warning",
     "error", "exception", "log", "append", "get", "format", "dumps",
     "loads", "isoformat", "now", "sleep", "round", "abs", "min", "max"]

/-- The `utility_functions` set of `cleanup_relationships`. -/
def utilityFunctions : List String :=
  ["get_trace_id", "get_trace_logger", "TraceFilter", "filter",
   "info", "debug", "warning", "error", "exception", "log", "critical",
   "format", "JsonFormatter", "dumps", "loads", "json",
   "get_connection", "cursor", "commit", "rollback", "close", "execute", "fetchone",
   "now", "isoformat", "strftime", "strptime", "utcnow",
   "str", "int", "float", "len", "type", "isinstance", "append", "get",
   "split", "join", "replace", "lower", "upper", "strip",
   "round", "abs", "min", "max", "sum", "sorted",
   "HTTPException", "raise_for_status", "post", "put", "delete",
   "BaseModel", "Field", "OrderResponse", "OrderRequest",
   "TradeValidationResponse", "TradeExecutionResponse",
   "RiskAssessmentResponse", "PricingResponse",
   "OrderType", "RiskLevel", "Enum",
   "sleep", "time",
   "ast", "walk", "parse"]

/-- Python `'\n'.split` first line: everything before the first newline. -/
def firstLine (s : String) : String := ⟨s.data.takeWhile (fun c => c ≠ '\n')⟩

/-- Python `str.capitalize`. -/
def pyCapitalize (s : String) : String :=
  match s.data with
  | [] => ""
  | c :: rest => ⟨Char.toUpper c :: rest.map Char.toLower⟩

/-- `a or b` where `a` is an optional string and the empty string is falsy. -/
def orElseStr (a : Option String) (b : String) : String :=
  match a with
  | some s => if s = "" then b else s
  | none => b

/-- `ast.get_docstring`: the string constant that is the first statement of
the body, if any (whitespace cleanup of the stdlib is not modeled; no claim
depends on the exact docstring text). -/
def docstringOf : List PyAst → Option String
  | PyAst.exprStmt (PyAst.strConst s) :: _ => some s
  | _ => none

/-- `CodeParser.extract_function_parameters`: drop the framework parameters
and join with a comma, `None` when nothing remains. -/
def extract_function_parameters (params : List String) : Option String :=
  let ps := params.filter (fun a => a ∉ ["self", "request", "x_trace_id", "cls"])
  if ps = [] then none else some (joinSep ", " ps)

/-- Leading segment of a decorator pattern (`pattern.split('.')[0]`). -/
def headSegment (p : String) : String := ⟨p.data.takeWhile (fun c => c ≠ '.')⟩

/-- Python `str.startswith`. -/
def strStarts (s pre : String) : Bool := pre.data.isPrefixOf s.data

/-- `CodeParser.extract_api_decorator`: the first decorator of the form
`v.attr(args...)` with `v.attr` matching an enabled web-framework pattern
prefix and a string-constant first argument yields
(HTTP method = upper-cased attribute, endpoint path). -/
def extract_api_decorator : List PyAst → Option String × Option String
  | [] => (none, none)
  | PyAst.call (PyAst.pyAttribute (PyAst.pyName v) attr) args _ :: rest =>
    if webDecorators.any (fun p => strStarts (v ++ "." ++ attr) (headSegment p)) then
      match args with
      | PyAst.strConst endpoint :: _ => (some (upperStr attr), some endpoint)
      | _ => extract_api_decorator rest
    else extract_api_decorator rest
  | _ :: rest => extract_api_decorator rest

/-- The callee-name resolution of `extract_local_calls`: a direct name, or
the final attribute segment. -/
def calleeName : PyAst → Option String
  | PyAst.pyName id => some id
  | PyAst.pyAttribute _ attr => some attr
  | _ => none

/-- `CodeParser._get_func_name`. -/
def get_func_name : PyAst → Option String
  | PyAst.pyName id => some id
  | PyAst.pyAttribute (PyAst.pyName v) attr => some (v ++ "." ++ attr)
  | PyAst.pyAttribute _ attr => some attr
  | _ => none

/-- The CALLS relationship emitted by `extract_local_calls`. -/
def mkCallsRel (src svc callee : String) (callOrder lineno : Nat) : Rel :=
  { sourceName := src
    sourceType := "function"
    sourceService := svc
    targetName := some callee
    targetType := "function"
    targetService := some svc
    relationshipType := "CALLS"
    description := src ++ " calls " ++ callee
    callOrder := some callOrder
    lineNumber := some lineno }

/-- The decision taken by the `extract_local_calls` loop at one walked
node: a call expression with a resolvable callee name outside the noise set
yields (callee, line number); anything else yields nothing. -/
def callEmit : PyAst → Option (String × Nat)
  | PyAst.call func _ ln =>
    match calleeName func with
    | some c => if c ∈ localCallNoise then none else some (c, ln)
    | none => none
  | _ => none

/-- The loop body of `CodeParser.extract_local_calls` over the walk order of
the function node: every call expression with a resolvable callee name that
is not in the noise set emits a CALLS relationship with the next 1-based
`call_order` and the call's line number. -/
def localCallsFrom (src svc : String) : List PyAst → Nat → List Rel
  | [], _ => []
  | n :: rest, callOrder =>
    match callEmit n with
    | some (c, ln) =>
      mkCallsRel src svc c (callOrder + 1) ln :: localCallsFrom src svc rest (callOrder + 1)
    | none => localCallsFrom src svc rest callOrder

/-- `CodeParser.extract_local_calls`. -/
def extract_local_calls (fd : PyAst) (src svc : String) : List Rel :=
  localCallsFrom src svc (PyAst.walk fd) 0

/-- `CodeParser._extract_url_from_arg`: reconstruct a textual URL pattern
from an f-string (placeholders for simple-name interpolations), a string
constant, or a `+` concatenation (which fails if either side is missing or
empty, Python truthiness). -/
def extract_url_from_arg : PyAst → Option String
  | PyAst.joinedStr values =>
    some (values.foldl
      (fun acc v =>
        match v with
        | PyAst.strConst s => acc ++ s
        | PyAst.formattedValue (PyAst.pyName id) => acc ++ "\x7b" ++ id ++ "\x7d"
        | _ => acc) "")
  | PyAst.strConst s => some s
  | PyAst.binOpAdd l r =>
    match extract_url_from_arg l, extract_url_from_arg r with
    | some a, some b => if a ≠ "" ∧ b ≠ "" then some (a ++ b) else none
    | _, _ => none
  | _ => none

/-- A regex word character (`\w`, ASCII range as used by the identifiers in
the analyzed sources). -/
def isWordChar (c : Char) : Bool := c.isAlphanum || c = '_'

/-- Match `\{(\w+)\}` at the start: the brace-delimited maximal word-chunk
and the remaining text. -/
def braceGroup : List Char → Option (List Char × List Char)
  | '{' :: rest =>
    let w := rest.takeWhile isWordChar
    match rest.drop w.length with
    | '}' :: tail => some (w, tail)
    | _ => none
  | _ => none

/-- Strip a fixed suffix from a word-chunk, if present. -/
def stripEnd (l suffix : List Char) : Option (List Char) :=
  if suffix.isSuffixOf l then some (l.take (l.length - suffix.length)) else none

/-- Match `re.match(r'\{(\w+)SUFFIX\}(/.*)', url)` for a fixed suffix:
the placeholder variable must be `X ++ SUFFIX` with `X` nonempty, and the
text after the closing brace must start with a slash; yields
(lower-cased `X`, endpoint).  `.` does not match a newline. -/
def matchPlaceholder (suffix : List Char) (url : List Char) : Option (String × String) :=
  match braceGroup url with
  | some (w, tail) =>
    match stripEnd w suffix with
    | some x =>
      match tail with
      | '/' :: _ =>
        if x ≠ [] then
          some (lowerStr ⟨x⟩, ⟨tail.takeWhile (fun c => c ≠ '\n')⟩)
        else none
      | _ => none
    | none => none
  | none => none

/-- Match the scheme of `re.match(r'https?://[^/]+(/.*)', url)` and return
the text after `://`. -/
def schemeRest : List Char → Option (List Char)
  | cs =>
    if "https://".data.isPrefixOf cs then some (cs.drop 8)
    else if "http://".data.isPrefixOf cs then some (cs.drop 7)
    else none

/-- `CodeParser._parse_service_url`: three regex branches over the
reconstructed URL pattern, then a substring scan of the known service base
URLs. -/
def parse_service_url (serviceUrls : List (String × String)) (urlPattern : String) :
    Option String × Option String :=
  match matchPlaceholder "_SERVICE_URL".data urlPattern.data with
  | some (svc, ep) => (some svc, some ep)
  | none =>
    match matchPlaceholder "_URL".data urlPattern.data with
    | some (svc, ep) => (some svc, some ep)
    | none =>
      match schemeRest urlPattern.data with
      | some rest =>
        let host := rest.takeWhile (fun c => c ≠ '/')
        match host, rest.drop host.length with
        | _ :: _, '/' :: epRest =>
          let ep : String := ⟨'/' :: epRest.takeWhile (fun c => c ≠ '\n')⟩
          match serviceUrls.find? (fun p => strContains urlPattern p.2) with
          | some p => (some p.1, some ep)
          | none => (none, some ep)
        | _, _ => (none, none)
      | none => (none, none)

/-- The API_CALLS relationship emitted by `extract_api_calls` (an f-string
renders an absent endpoint as the text None). -/
def mkApiRel (src svc : String) (svcKey ep : Option String) (up : String)
    (callOrder lineno : Nat) : Rel :=
  { sourceName := src
    sourceType := "function"
    sourceService := svc
    targetName := none
    targetType := "function"
    targetService := svcKey
    relationshipType := "API_CALLS"
    description := src ++ " makes API call to " ++ (ep.getD "None")
    urlPattern := some up
    endpoint := ep
    callOrder := some callOrder
    lineNumber := some lineno }

/-- The counter guard of `extract_api_calls`: `call_order` is bumped at
every `call_service` call, whether or not a relationship is emitted. -/
def isCallServiceCall : PyAst → Bool
  | PyAst.call func _ _ => get_func_name func = some "call_service"
  | _ => false

/-- The emission decision of `extract_api_calls` at one walked
`call_service` call: the reconstructed, truthy URL pattern split into
(service key, endpoint), plus the pattern and line number. -/
def apiEmit (serviceUrls : List (String × String)) :
    PyAst → Option (Option String × Option String × String × Nat)
  | PyAst.call _ args ln =>
    match args.head? with
    | some urlArg =>
      match extract_url_from_arg urlArg with
      | some up =>
        if up ≠ "" then
          some ((parse_service_url serviceUrls up).1,
            (parse_service_url serviceUrls up).2, up, ln)
        else none
      | none => none
    | none => none
  | _ => none

/-- The loop body of `CodeParser.extract_api_calls` over the walk order:
each `call_service(urlExpr, ...)` call bumps the counter; if the URL pattern
can be reconstructed (and is nonempty) it is split into service key and
endpoint and an unresolved API_CALLS relationship is emitted. -/
def apiCallsFrom (src svc : String) (serviceUrls : List (String × String)) :
    List PyAst → Nat → List Rel
  | [], _ => []
  | n :: rest, callOrder =>
    if isCallServiceCall n then
      match apiEmit serviceUrls n with
      | some (svcKey, ep, up, ln) =>
        mkApiRel src svc svcKey ep up (callOrder + 1) ln ::
          apiCallsFrom src svc serviceUrls rest (callOrder + 1)
      | none => apiCallsFrom src svc serviceUrls rest (callOrder + 1)
    else apiCallsFrom src svc serviceUrls rest callOrder

/-- `CodeParser.extract_api_calls` (the http_client_functions feature is
enabled in the default configuration). -/
def extract_api_calls (fd : PyAst) (src svc : String)
    (serviceUrls : List (String × String)) : List Rel :=
  apiCallsFrom src svc serviceUrls (PyAst.walk fd) 0

/-- The key reduction of `extract_service_urls`: lower-case the constant
name and strip the configured suffixes (`str.replace` removes every
occurrence, applied in order). -/
def serviceUrlKey (varName : String) : String :=
  let k := lowerStr varName
  let k := replaceAll k "_service_url" ""
  let k := replaceAll k "_url" ""
  let k := replaceAll k "_endpoint" ""
  replaceAll k "_base_url" ""

/-- `CodeParser._matches_pattern` for the configured `*_SERVICE_URL` /
`*_URL` constant patterns (a `*suffix` pattern matches names ending in the
suffix; identifiers contain no newline). -/
def matchesUrlConstant (nm : String) : Bool :=
  "_SERVICE_URL".data.isSuffixOf nm.data || "_URL".data.isSuffixOf nm.data

/-- The per-assignment action of `extract_service_urls`: each `Name` target
matching a URL-constant pattern whose assigned value is a string constant
registers service key ↦ base URL. -/
def applyUrlTargets (urls : List (String × String)) (targets : List PyAst)
    (value : PyAst) : List (String × String) :=
  targets.foldl
    (fun u t =>
      match t with
      | PyAst.pyName varName =>
        if matchesUrlConstant varName then
          match value with
          | PyAst.strConst s => dictInsert (serviceUrlKey varName) s u
          | _ => u
        else u
      | _ => u) urls

/-- `CodeParser.extract_service_urls`. -/
def extract_service_urls (tree : PyAst) (urls : List (String × String)) :
    List (String × String) :=
  (PyAst.walk tree).foldl
    (fun u n =>
      match n with
      | PyAst.assign targets value => applyUrlTargets u targets value
      | _ => u) urls

/-- The EXPOSES relationship of `extract_function`. -/
def mkExposesRel (endpoint fullName codeType serviceName : String) : Rel :=
  { sourceName := endpoint
    sourceType := "endpoint"
    sourceService := serviceName
    targetName := some fullName
    targetType := codeType
    targetService := some serviceName
    relationshipType := "EXPOSES"
    description := "Endpoint " ++ endpoint ++ " exposes " ++ fullName }

/-- The `if api_endpoint:` block of `extract_function`: register the truthy
endpoint in `self.api_endpoints` and emit the EXPOSES relationship. -/
def registerEndpoint (st : ParserState) (ad : Option String × Option String)
    (fullName codeType serviceName : String) : ParserState :=
  match ad.2 with
  | some e =>
    if e ≠ "" then
      { st with
        apiEndpoints :=
          dictInsert e
            { service := serviceName, function := fullName, method := ad.1 }
            st.apiEndpoints
        relationships :=
          st.relationships ++ [mkExposesRel e fullName codeType serviceName] }
    else st
  | none => st

/-- `CodeParser.extract_function`: skip-listed names produce nothing;
otherwise a CodeNode is appended, a truthy endpoint is registered (and an
EXPOSES relationship emitted), then local calls and API calls of the
function body are extracted. -/
def extract_function (st : ParserState) (fd : PyAst)
    (filepath serviceName : String) (className : Option String) : ParserState :=
  match fd with
  | PyAst.functionDef fname params body decorators =>
    if fname ∈ skipFunctions then st
    else
      let parameters := extract_function_parameters params
      let ad := extract_api_decorator decorators
      let fullName := match className with
        | some c => c ++ "." ++ fname
        | none => fname
      let codeType := match className with
        | some _ => "method"
        | none => "function"
      let summary :=
        firstLine (orElseStr (docstringOf body) (pyCapitalize codeType ++ " in " ++ serviceName))
      let node : CodeNode :=
        { name := fullName, type := codeType, parameters := parameters
          apiEndpoint := ad.2, apiMethod := ad.1
          serviceName := serviceName, filePath := filepath
          summary := summary, snippet := "" }
      let st1 := { st with codeNodes := st.codeNodes ++ [node] }
      let st2 := registerEndpoint st1 ad fullName codeType serviceName
      let st3 :=
        { st2 with relationships := st2.relationships ++ extract_local_calls fd fullName serviceName }
      { st3 with
        relationships :=
          st3.relationships ++ extract_api_calls fd fullName serviceName st3.serviceUrls }
  | _ => st

/-- `CodeParser._should_skip_class`. -/
def shouldSkipClass (cname : String) (bases : List String) : Bool :=
  cname ∈ skipClasses || bases.any (fun b => b ∈ skipBaseClasses)

/-- `CodeParser.extract_class`. -/
def extract_class (st : ParserState) (cd : PyAst)
    (filepath serviceName : String) : ParserState :=
  match cd with
  | PyAst.classDef cname _ body =>
    let summary := firstLine (orElseStr (docstringOf body) ("Class in " ++ serviceName))
    let node : CodeNode :=
      { name := cname, type := "class", parameters := none
        apiEndpoint := none, apiMethod := none
        serviceName := serviceName, filePath := filepath
        summary := summary, snippet := "" }
    { st with codeNodes := st.codeNodes ++ [node] }
  | _ => st

/-- The per-node action of the `ast.walk` loop of `parse_file`: function
definitions are extracted (class_name is always passed as None), non-skipped
classes are extracted, everything else is ignored. -/
def fileStep (filepath serviceName : String) (s : ParserState) (n : PyAst) : ParserState :=
  match n with
  | PyAst.functionDef _ _ _ _ => extract_function s n filepath serviceName none
  | PyAst.classDef cname bases _ =>
    if shouldSkipClass cname bases then s else extract_class s n filepath serviceName
  | _ => s

/-- `CodeParser.parse_file`: collect the service-URL constants of the file,
then walk the tree extracting every function definition and every
non-skipped class. -/
def parse_file (st : ParserState) (tree : PyAst)
    (filepath serviceName : String) : ParserState :=
  let st0 := { st with serviceUrls := extract_service_urls tree st.serviceUrls }
  (PyAst.walk tree).foldl (fileStep filepath serviceName) st0

/-- The registry hit test of `map_api_calls_to_endpoints`
(`if endpoint and endpoint in self.api_endpoints`). -/
def endpointHit (registry : List (String × EndpointInfo)) (r : Rel) :
    Option (String × EndpointInfo) :=
  match r.endpoint with
  | some e =>
    if e ≠ "" then (dictFind e registry).map (fun i => (e, i)) else none
  | none => none

/-- The in-place rewrite of one API_CALLS relationship on a registry hit. -/
def resolveRel (registry : List (String × EndpointInfo)) (r : Rel) : Rel :=
  if r.relationshipType = "API_CALLS" then
    match endpointHit registry r with
    | some (e, info) =>
      { r with
        targetName := some info.function
        targetService := some info.service
        description := r.sourceName ++ " calls " ++ e ++ " -> " ++ info.function }
    | none => r
  else r

/-- `CodeParser.map_api_calls_to_endpoints`: every relationship is kept, in
place; API_CALLS relationships whose endpoint hits the registry get their
target filled in. -/
def map_api_calls_to_endpoints (registry : List (String × EndpointInfo))
    (rels : List Rel) : List Rel :=
  rels.map (resolveRel registry)

/-- The unmapped count reported by `map_api_calls_to_endpoints` (misses are
counted, not raised). -/
def unmappedCount (registry : List (String × EndpointInfo)) (rels : List Rel) : Nat :=
  rels.countP
    (fun r => r.relationshipType = "API_CALLS" ∧ endpointHit registry r = none)

/-- The names admissible as CALLS targets
(`{node['name'] for node in self.code_nodes if node['type'] in ['function', 'method']}`). -/
def validFunctionNames (nodes : List CodeNode) : List String :=
  (nodes.filter (fun n => n.type = "function" ∨ n.type = "method")).map (fun n => n.name)

/-- The deduplication key of `cleanup_relationships`. -/
def relKey (r : Rel) : String × Option String × String × String × Option String :=
  (r.sourceName, r.targetName, r.relationshipType, r.sourceService, r.targetService)

/-- The three sequential drop filters of `cleanup_relationships` before
deduplication, as the conjunction of the negated continue-guards: the target
must be present and nonempty (truthy), not in the utility set, and — for
CALLS relationships — a known function name. -/
def passesFilters (valid : List String) (r : Rel) : Bool :=
  match r.targetName with
  | none => false
  | some t =>
    decide (¬t = "" ∧ t ∉ utilityFunctions ∧ ¬(r.relationshipType = "CALLS" ∧ t ∉ valid))

/-- The loop of `cleanup_relationships`, carrying the `seen` key set. -/
def cleanupAux (valid : List String) :
    List Rel → List (String × Option String × String × String × Option String) → List Rel
  | [], _ => []
  | r :: rest, seen =>
    if passesFilters valid r then
      if relKey r ∈ seen then cleanupAux valid rest seen
      else r :: cleanupAux valid rest (relKey r :: seen)
    else cleanupAux valid rest seen

/-- `CodeParser.cleanup_relationships`. -/
def cleanup_relationships (nodes : List CodeNode) (rels : List Rel) : List Rel :=
  cleanupAux (validFunctionNames nodes) rels []

/-- `CodeParser.validate_relationships`: the diagnostic messages (reported,
never used for filtering).  Relationships with sourceType endpoint are
exempt from the source check. -/
def validate_relationships (nodes : List CodeNode) (rels : List Rel) : List String :=
  let validNodes := nodes.map (fun n => n.name)
  rels.flatMap
    (fun r =>
      (if r.sourceName ∉ validNodes ∧ ¬r.sourceType = "endpoint" then
        ["Source not found: " ++ r.sourceName]
      else []) ++
      (match r.targetName with
       | some t =>
         if t ≠ "" ∧ t ∉ validNodes then
           ["Target not found: " ++ t ++ " (from " ++ r.sourceName ++ ")"]
         else []
       | none => []))

/-- One source file handed to `parse_project` (top-level directory =
service name). -/
structure SourceFile where
  filePath : String
  serviceName : String
  tree : PyAst

/-- `CodeParser.parse_project`: pass 1 parses every file (building the
endpoint registry), pass 2 resolves API calls against the completed
registry, pass 3 sanitizes the relationship set (pass 4, validation, is
diagnostic only and leaves the state unchanged). -/
def parse_project (files : List SourceFile) : ParserState :=
  let st := files.foldl (fun s f => parse_file s f.tree f.filePath f.serviceName) {}
  let st1 := { st with relationships := map_api_calls_to_endpoints st.apiEndpoints st.relationships }
  { st1 with relationships := cleanup_relationships st1.codeNodes st1.relationships }

/-- The names of the extracted nodes. -/
def nodeNames (nodes : List CodeNode) : List String := nodes.map (fun n => n.name)

/-- The referential invariant maintained by the extraction pass: every
relationship with a present target either is a CALLS edge (whose target the
sanitizer checks later) or targets an extracted node; every relationship not
sourced at a synthetic endpoint is sourced at an extracted node; and every
registry entry points at an extracted node. -/
def StateWF (st : ParserState) : Prop :=
  (∀ r ∈ st.relationships, ∀ t, r.targetName = some t →
    r.relationshipType = "CALLS" ∨ t ∈ nodeNames st.codeNodes) ∧
  (∀ r ∈ st.relationships,
    r.sourceType = "endpoint" ∨ r.sourceName ∈ nodeNames st.codeNodes) ∧
  (∀ kv ∈ st.apiEndpoints, kv.2.function ∈ nodeNames st.codeNodes)

end CodeGraph

namespace Workflows

/-- A persisted CodeNode row as seen by precompute_workflows.py
(`id` is the database identity). -/
structure WfNode where
  id : Nat
  name : String
  type : String
  serviceName : String
  summary : String
deriving DecidableEq, Repr

/-- A persisted relationship row (edge between node identities). -/
structure WfEdge where
  fromId : Nat
  toId : Nat
  rtype : String
deriving DecidableEq, Repr

/-- A row of the recursive CTE `WorkflowPath` of `get_workflow_path`
(the selected columns). -/
structure WfRow where
  id : Nat
  name : String
  type : String
  service : String
  summary : String
  depth : Nat
deriving DecidableEq, Repr

/-- Turn a joined CodeNode into a CTE row at a given depth. -/
def toRow (depth : Nat) (n : WfNode) : WfRow :=
  { id := n.id, name := n.name, type := n.type, service := n.serviceName
    summary := n.summary, depth := depth }

/-- The recursive member of the CTE: follow CALLS and API_CALLS edges out of
a row and join the called CodeNodes, one depth deeper. -/
def successors (nodes : List WfNode) (edges : List WfEdge) (row : WfRow) : List WfRow :=
  (edges.filter (fun e => e.fromId = row.id ∧ (e.rtype = "CALLS" ∨ e.rtype = "API_CALLS"))).flatMap
    (fun e => (nodes.filter (fun n => n.id = e.toId)).map (toRow (row.depth + 1)))

/-- The rows of the CTE produced at each depth: the anchor member seeds
depth 1 with every CodeNode named like the entry point; rows of depth `d`
recurse only while `d < max_depth`. -/
def cteLevel (nodes : List WfNode) (edges : List WfEdge) (entry : String)
    (maxDepth : Nat) : Nat → List WfRow
  | 0 => []
  | 1 => (nodes.filter (fun n => n.name = entry)).map (toRow 1)
  | d + 2 =>
    ((cteLevel nodes edges entry maxDepth (d + 1)).filter
        (fun row => row.depth < maxDepth)).flatMap
      (successors nodes edges)

/-- All rows of the (terminating) recursive CTE, depths 1 through
`max_depth`. -/
def cteRows (nodes : List WfNode) (edges : List WfEdge) (entry : String)
    (maxDepth : Nat) : List WfRow :=
  (List.range maxDepth).flatMap (fun i => cteLevel nodes edges entry maxDepth (i + 1))

/-- `ORDER BY depth, name` of the final SELECT. -/
def rowLe (a b : WfRow) : Prop :=
  a.depth < b.depth ∨ (a.depth = b.depth ∧ a.name.data ≤ b.name.data)

instance : DecidableRel rowLe := fun a b =>
  inferInstanceAs (Decidable (a.depth < b.depth ∨ (a.depth = b.depth ∧ a.name.data ≤ b.name.data)))

/-- `get_workflow_path`: run the CTE, `SELECT DISTINCT ... ORDER BY depth,
name` (ties beyond the sort key keep generation order in this model), then
the Python loop that keeps the first row per function name. -/
def get_workflow_path (nodes : List WfNode) (edges : List WfEdge)
    (entry : String) (maxDepth : Nat) : List WfRow :=
  dedupByName ((firstDedup (cteRows nodes edges entry maxDepth)).insertionSort rowLe)
where
  dedupByName : List WfRow → List WfRow :=
    go []
  go (seen : List String) : List WfRow → List WfRow
    | [] => []
    | r :: rest => if r.name ∈ seen then go seen rest else r :: go (r.name :: seen) rest

/-- `determine_workflow_type`: substring classification of the entry-point
name. -/
def determine_workflow_type (entryPointName : String) : String :=
  let nl := lowerStr entryPointName
  if strContains nl "institutional" then "institutional"
  else if strContains nl "algo" then "algo"
  else if strContains nl "retail" || nl = "place_order" then "retail"
  else "common"

/-- An ASCII single quote, kept out of string literals. -/
def squote : String := ⟨[Char.ofNat 39]⟩

/-- `aggregate_workflow_summary` (the `list(set(...))` of services, whose
order CPython leaves unspecified, is modeled in first-occurrence order). -/
def aggregate_workflow_summary : List WfRow → String
  | [] => "Empty workflow"
  | w :: rest =>
    let wfs := w :: rest
    let summaries := (wfs.map (fun f => f.summary)).filter (fun s => s ≠ "")
    if summaries = [] then "Workflow with " ++ toString wfs.length ++ " steps"
    else
      let services := firstDedup (wfs.map (fun f => f.service))
      let base :=
        "Workflow " ++ squote ++ w.name ++ squote ++ ": " ++
          joinSep " → " (summaries.take 5)
      let base :=
        if 5 < summaries.length then
          base ++ " ... and " ++ toString (summaries.length - 5) ++ " more steps"
        else base
      base ++ ". Involves " ++ toString services.length ++ " service(s): " ++
        joinSep ", " services

/-- A `WorkflowCatalog` row written by `persist_workflow`. -/
structure CatalogEntry where
  entryPointName : String
  workflowType : String
  route : List String
  workflowSummary : String
  totalSteps : Nat
  servicesInvolved : List String
deriving DecidableEq, Repr

/-- A `WorkflowFunctions` row written by `persist_workflow` (the
`data_contracts` column is derived from stored snippets, which the
embedding abstracts away; no claim depends on it). -/
structure WorkflowFunctionRow where
  functionName : String
  stepOrder : Nat
  serviceName : String
  functionSummary : String
deriving DecidableEq, Repr

/-- `persist_workflow`: one catalog row (route = function names in path
order, total_steps = number of path entries) plus one function row per step
with 1-based step_order. -/
def persist_workflow (entryName : String) (wfs : List WfRow) :
    CatalogEntry × List WorkflowFunctionRow :=
  ({ entryPointName := entryName
     workflowType := determine_workflow_type entryName
     route := wfs.map (fun f => f.name)
     workflowSummary := aggregate_workflow_summary wfs
     totalSteps := wfs.length
     servicesInvolved := firstDedup (wfs.map (fun f => f.service)) },
   wfs.enum.map
     (fun p =>
       { functionName := p.2.name, stepOrder := p.1 + 1
         serviceName := p.2.service, functionSummary := p.2.summary }))

end Workflows

namespace Examples

open CodeGraph CodeGraph.PyAst LogIngest Workflows

/-- The orchestrator source of the cross-service scenario:
`RISK_URL = "http://localhost:8003"` and `place_order` calling
`call_service(f"{RISK_URL}/assess")`. -/
def orchTree : PyAst :=
  .module
    [.assign [.pyName "RISK_URL"] (.strConst "http://localhost:8003"),
     .functionDef "place_order" ["order"]
       [.exprStmt (.strConst "Place an order."),
        .exprStmt (.call (.pyName "call_service")
          [.joinedStr [.formattedValue (.pyName "RISK_URL"), .strConst "/assess"]] 4)]
       []]

/-- The risk_service source of the cross-service scenario: `assess_risk`
decorated with `app.post("/assess")`. -/
def riskTree : PyAst :=
  .module
    [.functionDef "assess_risk" ["request"]
      [.exprStmt (.strConst "Assess risk."), .ret (.pyName "result")]
      [.call (.pyAttribute (.pyName "app") "post") [.strConst "/assess"] 1]]

/-- The two source files of the cross-service scenario, in the traversal
order that parses the caller before the callee's endpoint is registered. -/
def crossServiceFiles : List SourceFile :=
  [{ filePath := "orchestrator/main.py", serviceName := "orchestrator", tree := orchTree },
   { filePath := "risk_service/main.py", serviceName := "risk_service", tree := riskTree }]

/-- The parser state after running the full pipeline on the two-service
scenario. -/
def crossServiceRun : ParserState :=
  parse_project crossServiceFiles

/-- A function body with a nested call followed by a top-level call:
line 1 `foo(bar())`, line 2 `baz()`. -/
def nestedCallsDef : PyAst :=
  .functionDef "handler" []
    [.exprStmt (.call (.pyName "foo") [.call (.pyName "bar") [] 1] 1),
     .exprStmt (.call (.pyName "baz") [] 2)]
    []

/-- An event with the given trace id, timestamp and service (remaining
fields fixed). -/
def mkEvent (tid ts svc : String) : Event :=
  { timestamp := ts, service := svc, level := "INFO", traceId := tid
    orderId := "", function := "", message := "m", errorCode := ""
    errorType := "", exception := "", durationMs := none, metadata := "\x7b\x7d" }

/-- Three events with pairwise-distinct (traceId, timestamp, service)
triples but a collision of the `traceId_timestamp_service` key strings:
trace `t` has the chain `1_a` then `2`, and the single event of trace `t_1`
has the same key `t_1_a_s` as the first chain event. -/
def collisionEvents : List Event :=
  [mkEvent "t" "1_a" "s", mkEvent "t" "2" "s", mkEvent "t_1" "a" "s"]

/-- A well-typed decoded log record. -/
def sampleRecord : JsonRecord :=
  { timestamp := some "2024-01-01T10:00:01", level := some "INFO"
    message := some "[place_order] start", trace_id := some "t1"
    order_id := none, exception := none, error_code := none
    error_type := none, duration_ms := none, extraRaw := "\x7b\x7d" }

/-- A three-event single-trace ingestion without key collisions. -/
def simpleTraceEvents : List Event :=
  [mkEvent "t1" "2024-01-01T10:00:02" "svcB",
   mkEvent "t1" "2024-01-01T10:00:01" "svcA",
   mkEvent "t1" "2024-01-01T10:00:01" "svcB"]

/-- The persisted code graph of the workflow scenario: functions A, B, C. -/
def wfNodes : List WfNode :=
  [{ id := 0, name := "A", type := "function", serviceName := "orchestrator", summary := "start" },
   { id := 1, name := "B", type := "function", serviceName := "orchestrator", summary := "mid" },
   { id := 2, name := "C", type := "function", serviceName := "pricing_service", summary := "end" }]

/-- The acyclic call chain A calls B calls C. -/
def chainEdges : List WfEdge :=
  [{ fromId := 0, toId := 1, rtype := "CALLS" },
   { fromId := 1, toId := 2, rtype := "API_CALLS" }]

/-- The chain plus a back edge B calls A (a cycle). -/
def cycEdges : List WfEdge :=
  chainEdges ++ [{ fromId := 1, toId := 0, rtype := "CALLS" }]

/-- Two function nodes for the sanitizer witnesses. -/
def twoFnNodes : List CodeNode :=
  [{ name := "f", type := "function", parameters := none, apiEndpoint := none
     apiMethod := none, serviceName := "svc", filePath := "svc/m.py"
     summary := "Function in svc", snippet := "" },
   { name := "g", type := "function", parameters := none, apiEndpoint := none
     apiMethod := none, serviceName := "svc", filePath := "svc/m.py"
     summary := "Function in svc", snippet := "" }]

/-- A CALLS relationship f calls g, present twice (a duplicate). -/
def dupRels : List Rel :=
  [CodeGraph.mkCallsRel "f" "svc" "g" 1 3, CodeGraph.mkCallsRel "f" "svc" "g" 2 9]

/-- A one-entry endpoint registry for the resolver witness. -/
def smallRegistry : List (String × EndpointInfo) :=
  [("/price", { service := "pricing_service", function := "get_price", method := some "GET" })]

/-- One resolvable API call, one unresolvable API call, one local call. -/
def resolverRels : List Rel :=
  [CodeGraph.mkApiRel "place_order" "orchestrator" (some "pricing") (some "/price") "\x7bPRICING_URL\x7d/price" 1 5,
   CodeGraph.mkApiRel "place_order" "orchestrator" (some "risk") (some "/missing") "\x7bRISK_URL\x7d/missing" 2 6,
   CodeGraph.mkCallsRel "place_order" "orchestrator" "validate" 1 4]

end Examples

namespace CodeGraph

/-- Every relationship surviving `cleanup_relationships` passed the three
drop filters. -/
theorem mem_cleanupAux_passes {valid : List String} :
    ∀ {rels seen r}, r ∈ cleanupAux valid rels seen → passesFilters valid r = true := by
  intro rels
  induction rels with
  | nil => intro seen r h; cases h
  | cons a rest ih =>
    intro seen r h
    by_cases hp : passesFilters valid a = true
    · by_cases hk : relKey a ∈ seen
      · rw [cleanupAux, if_pos hp, if_pos hk] at h
        exact ih h
      · rw [cleanupAux, if_pos hp, if_neg hk] at h
        rcases List.mem_cons.mp h with rfl | h'
        · exact hp
        · exact ih h'
    · rw [cleanupAux, if_neg hp] at h
      exact ih h

/-- The drop filters only inspect components of the deduplication key. -/
theorem passesFilters_key_congr {valid : List String} {r r' : Rel}
    (h : relKey r = relKey r') : passesFilters valid r = passesFilters valid r' := by
  have ht : r.targetName = r'.targetName := congrArg (fun k => k.2.1) h
  have hy : r.relationshipType = r'.relationshipType := congrArg (fun k => k.2.2.1) h
  unfold passesFilters
  rw [ht, hy]

/-- The keys of the sanitized output are pairwise distinct and disjoint
from the `seen` accumulator. -/
theorem cleanupAux_keys_nodup {valid : List String} :
    ∀ rels seen, ((cleanupAux valid rels seen).map relKey).Nodup ∧
      ∀ k ∈ (cleanupAux valid rels seen).map relKey, k ∉ seen := by
  intro rels
  induction rels with
  | nil => intro seen; exact ⟨List.nodup_nil, by simp [cleanupAux]⟩
  | cons a rest ih =>
    intro seen
    by_cases hp : passesFilters valid a = true
    · by_cases hk : relKey a ∈ seen
      · rw [cleanupAux, if_pos hp, if_pos hk]
        exact ih seen
      · rw [cleanupAux, if_pos hp, if_neg hk]
        obtain ⟨hn, hd⟩ := ih (relKey a :: seen)
        refine ⟨List.nodup_cons.mpr ⟨?_, hn⟩, ?_⟩
        · intro hmem
          exact hd _ hmem (List.mem_cons_self _ _)
        · intro k hkmem
          rcases List.mem_cons.mp hkmem with rfl | h'
          · exact hk
          · intro hkseen
            exact hd _ h' (List.mem_cons_of_mem _ hkseen)
    · rw [cleanupAux, if_neg hp]
      exact ih seen

/-- A survivor of the sanitizer is the first relationship of the input
bearing its deduplication key. -/
theorem cleanupAux_first_occurrence {valid : List String} :
    ∀ rels seen r, r ∈ cleanupAux valid rels seen →
      rels.find? (fun x => decide (relKey x = relKey r)) = some r := by
  intro rels
  induction rels with
  | nil => intro seen r h; cases h
  | cons a rest ih =>
    intro seen r h
    by_cases hp : passesFilters valid a = true
    · by_cases hk : relKey a ∈ seen
      · rw [cleanupAux, if_pos hp, if_pos hk] at h
        have hne : relKey a ≠ relKey r := by
          intro he
          have := (cleanupAux_keys_nodup rest seen).2 (relKey r)
            (List.mem_map_of_mem relKey h)
          exact this (he ▸ hk)
        rw [List.find?_cons_of_neg _ (by simpa using hne)]
        exact ih seen r h
      · rw [cleanupAux, if_pos hp, if_neg hk] at h
        rcases List.mem_cons.mp h with rfl | h'
        · exact List.find?_cons_of_pos _ (by simp)
        · have hne : relKey a ≠ relKey r := by
            intro he
            have := (cleanupAux_keys_nodup rest (relKey a :: seen)).2 (relKey r)
              (List.mem_map_of_mem relKey h')
            exact this (he ▸ List.mem_cons_self _ _)
          rw [List.find?_cons_of_neg _ (by simpa using hne)]
          exact ih _ r h'
    · rw [cleanupAux, if_neg hp] at h
      have hne : relKey a ≠ relKey r := by
        intro he
        have hpr := mem_cleanupAux_passes h
        rw [passesFilters_key_congr he, hpr] at hp
        exact hp rfl
      rw [List.find?_cons_of_neg _ (by simpa using hne)]
      exact ih seen r h

end CodeGraph

namespace LogIngest

/-- Dropping a caught-and-skipped `JSONDecodeError` line anywhere in a file
leaves the parse outcome unchanged. -/
theorem parse_log_file_malformed (svc tid : String) :
    ∀ pre post : List Line,
      parse_log_file svc tid (pre ++ Line.malformed :: post) =
        parse_log_file svc tid (pre ++ post) := by
  intro pre
  induction pre with
  | nil => intro post; rfl
  | cons l rest ih =>
    intro post
    cases l with
    | blank =>
      rw [List.cons_append, List.cons_append, parse_log_file, parse_log_file]
      exact ih post
    | malformed =>
      rw [List.cons_append, List.cons_append, parse_log_file, parse_log_file]
      exact ih post
    | nonRecord => rfl
    | record j =>
      rw [List.cons_append, List.cons_append, parse_log_file, parse_log_file]
      rw [ih post]

/-- A decoded non-record line aborts the parse of its file with the
uncaught `AttributeError`. -/
theorem parse_log_file_nonRecord (svc tid : String) :
    ∀ lines : List Line, Line.nonRecord ∈ lines →
      parse_log_file svc tid lines = .error "AttributeError" := by
  intro lines
  induction lines with
  | nil => intro h; cases h
  | cons l rest ih =>
    intro h
    cases l with
    | blank =>
      rw [parse_log_file]
      exact ih (by simpa using h)
    | malformed =>
      rw [parse_log_file]
      exact ih (by simpa using h)
    | nonRecord => rfl
    | record j =>
      have hm : Line.nonRecord ∈ rest := by simpa using h
      rw [parse_log_file, ih hm]
      rfl

end LogIngest

/-- Counterexample for claim C9 as stated: a line that cannot be
interpreted as a structured record (valid JSON, but not a well-typed record
dict) is NOT merely skipped — `parse_log_file` catches only
`json.JSONDecodeError`, so the uncaught `AttributeError` aborts the run:
the remaining lines of the file and all other files are not ingested, even
though the second file alone would ingest its event. -/
theorem uncaught_line_abort_counterexample :
    LogIngest.parse_log_file "svcA" "t1"
        [LogIngest.Line.nonRecord, LogIngest.Line.record Examples.sampleRecord] =
      .error "AttributeError" ∧
    LogIngest.ingestFiles
        [("svcA", "t1", [LogIngest.Line.nonRecord]),
         ("svcB", "t2", [LogIngest.Line.record Examples.sampleRecord])] =
      .error "AttributeError" ∧
    LogIngest.ingestFiles
        [("svcB", "t2", [LogIngest.Line.record Examples.sampleRecord])] =
      .ok [LogIngest.buildEvent "svcB" "t2" Examples.sampleRecord] :=
  ⟨rfl, rfl, rfl⟩

/-- Claim C9 (amended): lines are parsed independently only with respect to
JSON decoding — a line raising `json.JSONDecodeError` is skipped (with a
warning) while the remaining lines of that file and all other files are
still ingested; but a line whose JSON decodes to anything other than a
well-typed record dict raises an uncaught `AttributeError` that aborts the
entire run. -/
theorem malformed_line_skipped (svc tid : String) (pre post : List LogIngest.Line)
    (fs1 fs2 : List (String × String × List LogIngest.Line)) :
    LogIngest.parse_log_file svc tid (pre ++ LogIngest.Line.malformed :: post) =
        LogIngest.parse_log_file svc tid (pre ++ post) ∧
      LogIngest.ingestFiles (fs1 ++ (svc, tid, pre ++ LogIngest.Line.malformed :: post) :: fs2) =
        LogIngest.ingestFiles (fs1 ++ (svc, tid, pre ++ post) :: fs2) ∧
      ∀ lines : List LogIngest.Line, LogIngest.Line.nonRecord ∈ lines →
        LogIngest.parse_log_file svc tid lines = .error "AttributeError" := by
  refine ⟨LogIngest.parse_log_file_malformed svc tid pre post, ?_,
    LogIngest.parse_log_file_nonRecord svc tid⟩
  induction fs1 with
  | nil =>
    rw [List.nil_append, List.nil_append, LogIngest.ingestFiles, LogIngest.ingestFiles,
      LogIngest.parse_log_file_malformed svc tid pre post]
  | cons f rest ih =>
    rw [List.cons_append, List.cons_append, LogIngest.ingestFiles, LogIngest.ingestFiles, ih]

/-- Witness for claim C9 (amended): a concrete file whose decoded
non-record line aborts the parse. -/
theorem malformed_line_skipped_witness :
    LogIngest.parse_log_file "svcA" "t1"
        [LogIngest.Line.record Examples.sampleRecord, LogIngest.Line.nonRecord] =
      .error "AttributeError" :=
  (malformed_line_skipped "svcA" "t1" [] [] [] []).2.2
    [LogIngest.Line.record Examples.sampleRecord, LogIngest.Line.nonRecord] (by decide)

/-- Claim C8: the resolver pass keeps every relationship, in order; a
relationship that is not API_CALLS, or whose endpoint misses the registry,
comes through unchanged; a registry hit rewrites exactly targetName,
targetService and description. -/
theorem resolver_frame (registry : List (String × CodeGraph.EndpointInfo))
    (rels : List CodeGraph.Rel) :
    (CodeGraph.map_api_calls_to_endpoints registry rels).length = rels.length ∧
    ∀ (i : Nat) (r : CodeGraph.Rel), rels[i]? = some r →
      (CodeGraph.map_api_calls_to_endpoints registry rels)[i]? =
          some (CodeGraph.resolveRel registry r) ∧
        (r.relationshipType ≠ "API_CALLS" → CodeGraph.resolveRel registry r = r) ∧
        (CodeGraph.endpointHit registry r = none → CodeGraph.resolveRel registry r = r) ∧
        ∀ e info, CodeGraph.endpointHit registry r = some (e, info) →
          CodeGraph.resolveRel registry r =
            { r with
              targetName := some info.function
              targetService := some info.service
              description := r.sourceName ++ " calls " ++ e ++ " -> " ++ info.function } ∨
            r.relationshipType ≠ "API_CALLS" ∧ CodeGraph.resolveRel registry r = r := by
  refine ⟨by simp [CodeGraph.map_api_calls_to_endpoints], ?_⟩
  intro i r hr
  refine ⟨?_, ?_, ?_, ?_⟩
  · show (rels.map (CodeGraph.resolveRel registry))[i]? = _
    rw [List.getElem?_map, hr]
    rfl
  · intro hn
    simp [CodeGraph.resolveRel, hn]
  · intro hn
    by_cases ht : r.relationshipType = "API_CALLS" <;>
      simp [CodeGraph.resolveRel, ht, hn]
  · intro e info hhit
    by_cases ht : r.relationshipType = "API_CALLS"
    · left
      simp [CodeGraph.resolveRel, ht, hhit]
    · right
      exact ⟨ht, by simp [CodeGraph.resolveRel, ht]⟩

/-- Witness for claim C8: the resolver frame theorem applied to a concrete
run with one registry hit, one miss and one local call. -/
theorem resolver_frame_witness :
    (CodeGraph.map_api_calls_to_endpoints Examples.smallRegistry Examples.resolverRels)[0]? =
      some (CodeGraph.resolveRel Examples.smallRegistry
        (CodeGraph.mkApiRel "place_order" "orchestrator" (some "pricing") (some "/price")
          "\x7bPRICING_URL\x7d/price" 1 5)) :=
  ((resolver_frame Examples.smallRegistry Examples.resolverRels).2 0 _ (by rfl)).1

namespace CodeGraph

/-- The call orders assigned by the `extract_local_calls` loop continue the
running counter: they are consecutive from one past its starting value. -/
theorem localCallsFrom_orders (src svc : String) :
    ∀ (l : List PyAst) (k : Nat),
      (localCallsFrom src svc l k).map (fun r => r.callOrder) =
        (List.range' (k + 1) (localCallsFrom src svc l k).length).map some := by
  intro l
  induction l with
  | nil => intro k; simp [localCallsFrom]
  | cons n rest ih =>
    intro k
    cases hce : callEmit n with
    | none => simp only [localCallsFrom, hce]; exact ih k
    | some p =>
      simp only [localCallsFrom, hce, List.map_cons, List.length_cons, List.range'_succ,
        mkCallsRel]
      exact congrArg (List.cons (some (k + 1))) (ih (k + 1))

/-- The relationships emitted by the `extract_local_calls` loop are exactly
the visited call expressions with a resolvable, non-noise callee, carrying
their line numbers, in visit order. -/
theorem localCallsFrom_targets (src svc : String) :
    ∀ (l : List PyAst) (k : Nat),
      (localCallsFrom src svc l k).map (fun r => (r.targetName, r.lineNumber)) =
        l.filterMap (fun n => (callEmit n).map (fun p => (some p.1, some p.2))) := by
  intro l
  induction l with
  | nil => intro k; simp [localCallsFrom]
  | cons n rest ih =>
    intro k
    cases hce : callEmit n with
    | none =>
      simp only [localCallsFrom, hce, List.filterMap_cons, Option.map_none']
      exact ih k
    | some p =>
      simp only [localCallsFrom, hce, List.filterMap_cons, Option.map_some', List.map_cons,
        mkCallsRel]
      exact congrArg (List.cons (some p.1, some p.2)) (ih (k + 1))

end CodeGraph

/-- Claim C7 (amended): for every function body the extractor emits one
CALLS relationship per call expression of the breadth-first `ast.walk`
order whose resolved callee is not in the noise list; the callOrder values
are 1-based and consecutive in that walk order (which is not source order
for nested calls), and each relationship carries the call's line number. -/
theorem call_order_walk_order (fd : CodeGraph.PyAst) (src svc : String) :
    (CodeGraph.extract_local_calls fd src svc).map (fun r => r.callOrder) =
        (List.range' 1 (CodeGraph.extract_local_calls fd src svc).length).map some ∧
      (CodeGraph.extract_local_calls fd src svc).map (fun r => (r.targetName, r.lineNumber)) =
        (CodeGraph.PyAst.walk fd).filterMap
          (fun n => (CodeGraph.callEmit n).map (fun p => (some p.1, some p.2))) :=
  ⟨CodeGraph.localCallsFrom_orders src svc (CodeGraph.PyAst.walk fd) 0,
   CodeGraph.localCallsFrom_targets src svc (CodeGraph.PyAst.walk fd) 0⟩

/-- Counterexample for claim C7 as stated: in the body `foo(bar())` (line 1)
then `baz()` (line 2), the nested call `bar` appears earlier in the source
than `baz` but receives callOrder 3 while `baz` receives callOrder 2 —
`ast.walk` is breadth-first, not source order. -/
theorem call_order_source_order_counterexample :
    ∃ r1 ∈ CodeGraph.extract_local_calls Examples.nestedCallsDef "handler" "svc",
      ∃ r2 ∈ CodeGraph.extract_local_calls Examples.nestedCallsDef "handler" "svc",
        r1.targetName = some "bar" ∧ r2.targetName = some "baz" ∧
          r1.lineNumber = some 1 ∧ r2.lineNumber = some 2 ∧
          r1.callOrder = some 3 ∧ r2.callOrder = some 2 := by
  decide

/-- Claim C2: on the two-service scenario (orchestrator's `place_order`
calling `call_service(f"{RISK_URL}/assess")`, risk_service exposing
`assess_risk` at `/assess`), the extractor plus the cross-service resolver
produce an API_CALLS relationship from `place_order` with target
`assess_risk` in service `risk_service`. -/
theorem cross_service_resolution_example :
    ∃ r ∈ Examples.crossServiceRun.relationships,
      r.relationshipType = "API_CALLS" ∧ r.sourceName = "place_order" ∧
        r.sourceService = "orchestrator" ∧ r.targetName = some "assess_risk" ∧
        r.targetService = some "risk_service" := by
  decide

/-- Counterexample for claim C3 as stated: after the sanitizer, the
retained EXPOSES relationship has source `/assess`, and no extracted node
bears that name — the synthetic endpoint is never materialized as a node. -/
theorem sanitizer_source_counterexample :
    ∃ r ∈ Examples.crossServiceRun.relationships,
      r.relationshipType = "EXPOSES" ∧ r.sourceName = "/assess" ∧
        ¬ r.sourceName ∈ Examples.crossServiceRun.codeNodes.map (fun n => n.name) := by
  decide

/-- Claim C6: workflow discovery on the acyclic chain A calls B calls C
yields the route [A, B, C] with totalSteps 3; with the back edge B calls A
the (depth-bounded) traversal still terminates and A appears exactly once
in the route. -/
theorem workflow_route_example :
    (Workflows.persist_workflow "A"
          (Workflows.get_workflow_path Examples.wfNodes Examples.chainEdges "A" 10)).1.route =
        ["A", "B", "C"] ∧
      (Workflows.persist_workflow "A"
          (Workflows.get_workflow_path Examples.wfNodes Examples.chainEdges "A" 10)).1.totalSteps = 3 ∧
      ((Workflows.get_workflow_path Examples.wfNodes Examples.cycEdges "A" 10).map
          (fun r => r.name)).count "A" = 1 ∧
      (Workflows.persist_workflow "A"
          (Workflows.get_workflow_path Examples.wfNodes Examples.cycEdges "A" 10)).1.route =
        ["A", "B", "C"] := by
  decide

/-- Claim C4: after the sanitizer no two retained relationships share the
(sourceName, targetName, relationshipType, sourceService, targetService)
tuple, and each retained relationship is the first occurrence of its tuple
in the input order. -/
theorem sanitizer_dedup (nodes : List CodeGraph.CodeNode) (rels : List CodeGraph.Rel) :
    ((CodeGraph.cleanup_relationships nodes rels).map CodeGraph.relKey).Nodup ∧
      ∀ r ∈ CodeGraph.cleanup_relationships nodes rels,
        rels.find? (fun x => decide (CodeGraph.relKey x = CodeGraph.relKey r)) = some r :=
  ⟨(CodeGraph.cleanupAux_keys_nodup rels []).1,
   fun r hr => CodeGraph.cleanupAux_first_occurrence rels [] r hr⟩

/-- Witness for claim C4: on a duplicated CALLS relationship the first
occurrence (callOrder 1, line 3) is the one retained. -/
theorem sanitizer_dedup_witness :
    Examples.dupRels.find?
        (fun x => decide (CodeGraph.relKey x = CodeGraph.relKey (CodeGraph.mkCallsRel "f" "svc" "g" 1 3))) =
      some (CodeGraph.mkCallsRel "f" "svc" "g" 1 3) :=
  (sanitizer_dedup Examples.twoFnNodes Examples.dupRels).2
    (CodeGraph.mkCallsRel "f" "svc" "g" 1 3) (by decide)

/-- Claim C5: every CALLS relationship surviving sanitization targets a
name of an extracted function or method node. -/
theorem calls_target_valid (nodes : List CodeGraph.CodeNode) (rels : List CodeGraph.Rel) :
    ∀ r ∈ CodeGraph.cleanup_relationships nodes rels,
      r.relationshipType = "CALLS" →
        ∃ t, r.targetName = some t ∧ t ∈ CodeGraph.validFunctionNames nodes := by
  intro r hr hc
  have hp := CodeGraph.mem_cleanupAux_passes hr
  cases ht : r.targetName with
  | none => simp [CodeGraph.passesFilters, ht] at hp
  | some t =>
    refine ⟨t, rfl, ?_⟩
    simp only [CodeGraph.passesFilters, ht, decide_eq_true_eq] at hp
    by_cases h3 : t ∈ CodeGraph.validFunctionNames nodes
    · exact h3
    · exact absurd ⟨hc, h3⟩ hp.2.2

/-- Witness for claim C5: the surviving duplicate CALLS relationship
targets `g`, a known function node. -/
theorem calls_target_valid_witness :
    ∃ t, (CodeGraph.mkCallsRel "f" "svc" "g" 1 3).targetName = some t ∧
      t ∈ CodeGraph.validFunctionNames Examples.twoFnNodes :=
  calls_target_valid Examples.twoFnNodes Examples.dupRels
    (CodeGraph.mkCallsRel "f" "svc" "g" 1 3) (by decide) rfl

/-- Membership in the first-occurrence deduplication loop. -/
theorem firstDedup_go_mem {α : Type} [DecidableEq α] :
    ∀ (l : List α) (seen : List α) (a : α),
      a ∈ firstDedup.go seen l ↔ a ∈ l ∧ a ∉ seen := by
  intro l
  induction l with
  | nil => intro seen a; simp [firstDedup.go]
  | cons b rest ih =>
    intro seen a
    by_cases hb : b ∈ seen
    · rw [firstDedup.go, if_pos hb, ih]
      constructor
      · rintro ⟨h1, h2⟩
        exact ⟨List.mem_cons_of_mem _ h1, h2⟩
      · rintro ⟨h1, h2⟩
        rcases List.mem_cons.mp h1 with rfl | h1'
        · exact absurd hb h2
        · exact ⟨h1', h2⟩
    · rw [firstDedup.go, if_neg hb]
      constructor
      · intro h
        rcases List.mem_cons.mp h with rfl | h'
        · exact ⟨List.mem_cons_self _ _, hb⟩
        · obtain ⟨h1, h2⟩ := (ih (b :: seen) a).mp h'
          exact ⟨List.mem_cons_of_mem _ h1,
            fun hs => h2 (List.mem_cons_of_mem _ hs)⟩
      · rintro ⟨h1, h2⟩
        rcases List.mem_cons.mp h1 with rfl | h1'
        · exact List.mem_cons_self _ _
        · by_cases hab : a = b
          · subst hab; exact List.mem_cons_self _ _
          · exact List.mem_cons_of_mem _ ((ih (b :: seen) a).mpr
              ⟨h1', by simp [List.mem_cons, hab, h2]⟩)

/-- The first-occurrence deduplication yields no duplicates. -/
theorem firstDedup_go_nodup {α : Type} [DecidableEq α] :
    ∀ (l : List α) (seen : List α), (firstDedup.go seen l).Nodup := by
  intro l
  induction l with
  | nil => intro seen; simp [firstDedup.go]
  | cons b rest ih =>
    intro seen
    by_cases hb : b ∈ seen
    · rw [firstDedup.go, if_pos hb]; exact ih seen
    · rw [firstDedup.go, if_neg hb]
      refine List.nodup_cons.mpr ⟨?_, ih (b :: seen)⟩
      intro hmem
      exact ((firstDedup_go_mem rest (b :: seen) b).mp hmem).2 (List.mem_cons_self _ _)

/-- `firstDedup` keeps exactly the elements of the input. -/
theorem firstDedup_mem {α : Type} [DecidableEq α] {l : List α} {a : α} :
    a ∈ firstDedup l ↔ a ∈ l := by
  rw [firstDedup, firstDedup_go_mem]
  simp

/-- `firstDedup` yields no duplicates. -/
theorem firstDedup_nodup {α : Type} [DecidableEq α] (l : List α) :
    (firstDedup l).Nodup :=
  firstDedup_go_nodup l []

namespace LogIngest

/-- Inserting a pair whose position is below every position in a list makes
the position-blind and position-aware comparisons agree. -/
theorem orderedInsert_pair_congr :
    ∀ (L : List (Nat × Event)) (a : Nat × Event), (∀ b ∈ L, a.1 ≤ b.1) →
      L.orderedInsert pairTsLe a = L.orderedInsert tsIdxLe a := by
  intro L
  induction L with
  | nil => intro a _; rfl
  | cons b L' ih =>
    intro a h
    have hab : a.1 ≤ b.1 := h b (List.mem_cons_self _ _)
    have hiff : pairTsLe a b ↔ tsIdxLe a b := by
      constructor
      · intro hle
        rcases lt_or_eq_of_le hle with hlt | heq
        · exact Or.inl hlt
        · exact Or.inr ⟨heq, hab⟩
      · intro hle
        rcases hle with hlt | ⟨heq, _⟩
        · exact le_of_lt hlt
        · exact le_of_eq heq
    by_cases hc : pairTsLe a b
    · rw [List.orderedInsert, if_pos hc, List.orderedInsert, if_pos (hiff.mp hc)]
    · rw [List.orderedInsert, if_neg hc, List.orderedInsert,
        if_neg (fun hx => hc (hiff.mpr hx))]
      exact congrArg (List.cons b)
        (ih a (fun q hq => h q (List.mem_cons_of_mem _ hq)))

/-- On a list of (position, event) pairs with strictly increasing
positions, the stable insertion sort by timestamp coincides with sorting by
(timestamp, position): this is the stability of Python's `sorted`. -/
theorem insertionSort_pair_eq :
    ∀ (l : List (Nat × Event)), l.Pairwise (fun p q => p.1 < q.1) →
      l.insertionSort pairTsLe = l.insertionSort tsIdxLe := by
  intro l
  induction l with
  | nil => intro _; rfl
  | cons a l' ih =>
    intro h
    obtain ⟨ha, h'⟩ := List.pairwise_cons.mp h
    rw [List.insertionSort, List.insertionSort, ih h',
      orderedInsert_pair_congr _ a]
    intro b hb
    exact le_of_lt (ha b ((List.mem_insertionSort tsIdxLe).mp hb))

/-- Positions in `enumFrom n l` are at least `n`. -/
theorem enumFrom_fst_ge {α : Type} :
    ∀ (l : List α) (n : Nat) (q : Nat × α), q ∈ List.enumFrom n l → n ≤ q.1 := by
  intro l
  induction l with
  | nil => intro n q h; cases h
  | cons b rest ih =>
    intro n q h
    rcases List.mem_cons.mp h with rfl | h'
    · exact Nat.le_refl n
    · exact Nat.le_of_succ_le (ih (n + 1) q h')

/-- Positions in `enumFrom` are strictly increasing. -/
theorem enumFrom_pairwise_fst {α : Type} :
    ∀ (l : List α) (n : Nat),
      (List.enumFrom n l).Pairwise (fun p q => p.1 < q.1) := by
  intro l
  induction l with
  | nil => intro n; simp
  | cons b rest ih =>
    intro n
    refine List.pairwise_cons.mpr ⟨?_, ih (n + 1)⟩
    intro q hq
    exact Nat.lt_of_succ_le (enumFrom_fst_ge rest (n + 1) q hq)

/-- `sortEvents` (the stable `sorted` of the ingestor) orders the events of
a list by timestamp with ties broken by original position: it equals the
projection of the (timestamp, position)-lexicographic sort of the
position-tagged list. -/
theorem sortEvents_stable (es : List Event) :
    sortEvents es = ((es.enum).insertionSort tsIdxLe).map Prod.snd := by
  have hpw : (es.enum).Pairwise (fun p q => p.1 < q.1) := enumFrom_pairwise_fst es 0
  have h1 : ((es.enum).insertionSort pairTsLe).map Prod.snd =
      ((es.enum.map Prod.snd).insertionSort tsLe) := by
    apply List.map_insertionSort
    intro a _ b _
    exact Iff.rfl
  rw [← insertionSort_pair_eq es.enum hpw, h1, List.enum_map_snd]
  rfl

/-- Cancellation of a common prefix of strings. -/
theorem strAppend_cancel {s a b : String} (h : s ++ a = s ++ b) : a = b := by
  have hd : s.data ++ a.data = s.data ++ b.data := by
    have := congrArg String.data h
    simpa [String.data_append] using this
  exact String.ext (List.append_cancel_left hd)

/-- Every relationship built for one trace carries that trace's
description. -/
theorem chainRels_description {tid : String} {chain : List Event} :
    ∀ r ∈ chainRels tid chain, r.description = "Next log in trace " ++ tid := by
  intro r hr
  obtain ⟨p, _, rfl⟩ := List.mem_map.mp hr
  rfl

/-- Filtering the concatenated per-trace relationship blocks by one trace's
description recovers exactly that trace's block. -/
theorem flatMap_filter_trace (events : List Event) (tid : String) :
    ∀ tids : List String, tids.Nodup → tid ∈ tids →
      ((tids.flatMap (fun t => chainRels t (sortEvents (eventsFor t events)))).filter
          (fun r => decide (r.description = "Next log in trace " ++ tid))) =
        chainRels tid (sortEvents (eventsFor tid events)) := by
  have hinj : ∀ t : String, "Next log in trace " ++ t = "Next log in trace " ++ tid → t = tid :=
    fun t h => strAppend_cancel h
  intro tids
  induction tids with
  | nil => intro _ ht; cases ht
  | cons t rest ih =>
    intro hnd ht
    obtain ⟨htr, hrest⟩ := List.pairwise_cons.mp hnd
    rw [List.flatMap_cons, List.filter_append]
    rcases List.mem_cons.mp ht with rfl | htid
    · have hfirst : (chainRels tid (sortEvents (eventsFor tid events))).filter
          (fun r => decide (r.description = "Next log in trace " ++ tid)) =
          chainRels tid (sortEvents (eventsFor tid events)) := by
        apply List.filter_eq_self.mpr
        intro r hr
        simp [chainRels_description r hr]
      have hsecond : (rest.flatMap
          (fun t' => chainRels t' (sortEvents (eventsFor t' events)))).filter
          (fun r => decide (r.description = "Next log in trace " ++ tid)) = [] := by
        apply List.filter_eq_nil_iff.mpr
        intro r hr
        obtain ⟨t', ht', hrin⟩ := List.mem_flatMap.mp hr
        rw [chainRels_description r hrin]
        simp only [decide_eq_true_eq]
        intro he
        exact htr t' ht' (hinj t' he).symm
      rw [hfirst, hsecond, List.append_nil]
    · have hfirst : (chainRels t (sortEvents (eventsFor t events))).filter
          (fun r => decide (r.description = "Next log in trace " ++ tid)) = [] := by
        apply List.filter_eq_nil_iff.mpr
        intro r hr
        rw [chainRels_description r hr]
        simp only [decide_eq_true_eq]
        intro he
        exact htr tid htid (hinj t he)
      rw [hfirst, List.nil_append]
      exact ih hrest htid

/-- Filtering the full relationship output by one trace's description
recovers exactly that trace's chain relationships. -/
theorem create_filter_trace (events : List Event) (tid : String)
    (ht : tid ∈ traceIdsOf events) :
    (create_temporal_relationships events).filter
        (fun r => decide (r.description = "Next log in trace " ++ tid)) =
      chainRels tid (sortEvents (eventsFor tid events)) :=
  flatMap_filter_trace events tid (traceIdsOf events)
    (by exact firstDedup_nodup _) ht

/-- One chain edge per consecutive pair: the relationship count is one less
than the chain length. -/
theorem chainRels_length (tid : String) (chain : List Event) :
    (chainRels tid chain).length = chain.length - 1 := by
  rw [chainRels, List.length_map, List.length_zip, List.length_tail]
  exact Nat.min_eq_right (Nat.sub_le _ _)

end LogIngest

/-- Claim C1: for every trace, the log ingestor produces exactly n−1
next_log relationships (n = number of the trace's events); they connect
exactly the consecutive pairs of a single chain, so the chain is linear and
non-branching; the chain is a permutation of the trace's events whose
timestamps are non-decreasing; and the chain orders the events by timestamp
with ties broken by original arrival order (it is the projection of the
(timestamp, position)-lexicographically sorted position-tagged event
list). -/
theorem trace_chain_spec (events : List LogIngest.Event) (tid : String)
    (ht : tid ∈ LogIngest.traceIdsOf events)
    (_hn : 1 < (LogIngest.eventsFor tid events).length) :
    ((LogIngest.create_temporal_relationships events).filter
        (fun r => decide (r.description = "Next log in trace " ++ tid))) =
      LogIngest.chainRels tid (LogIngest.sortEvents (LogIngest.eventsFor tid events)) ∧
    ((LogIngest.create_temporal_relationships events).filter
        (fun r => decide (r.description = "Next log in trace " ++ tid))).length =
      (LogIngest.eventsFor tid events).length - 1 ∧
    (LogIngest.sortEvents (LogIngest.eventsFor tid events)).Chain' LogIngest.tsLe ∧
    List.Perm (LogIngest.sortEvents (LogIngest.eventsFor tid events))
      (LogIngest.eventsFor tid events) ∧
    LogIngest.sortEvents (LogIngest.eventsFor tid events) =
      (((LogIngest.eventsFor tid events).enum).insertionSort LogIngest.tsIdxLe).map
        Prod.snd ∧
    (((LogIngest.eventsFor tid events).enum).insertionSort LogIngest.tsIdxLe).Sorted
      LogIngest.tsIdxLe ∧
    List.Perm (((LogIngest.eventsFor tid events).enum).insertionSort LogIngest.tsIdxLe)
      ((LogIngest.eventsFor tid events).enum) := by
  refine ⟨LogIngest.create_filter_trace events tid ht, ?_, ?_, ?_, ?_, ?_, ?_⟩
  · rw [LogIngest.create_filter_trace events tid ht, LogIngest.chainRels_length,
      LogIngest.sortEvents, List.length_insertionSort]
  · exact List.chain'_iff_pairwise.mpr (List.sorted_insertionSort LogIngest.tsLe _)
  · exact List.perm_insertionSort LogIngest.tsLe _
  · exact LogIngest.sortEvents_stable _
  · exact List.sorted_insertionSort LogIngest.tsIdxLe _
  · exact List.perm_insertionSort LogIngest.tsIdxLe _

/-- Witness for claim C1: on a concrete three-event trace the ingestor
produces exactly two next_log relationships. -/
theorem trace_chain_spec_witness :
    ((LogIngest.create_temporal_relationships Examples.simpleTraceEvents).filter
        (fun r => decide (r.description = "Next log in trace " ++ "t1"))).length =
      (LogIngest.eventsFor "t1" Examples.simpleTraceEvents).length - 1 :=
  (trace_chain_spec Examples.simpleTraceEvents "t1" (by decide) (by decide)).2.1

namespace LogIngest

/-- Inserting a fresh key into an association list appends the binding. -/
theorem dictInsert_fresh {β : Type} (k : String) (v : β) :
    ∀ m : List (String × β), k ∉ m.map Prod.fst → dictInsert k v m = m ++ [(k, v)] := by
  intro m
  induction m with
  | nil => intro _; rfl
  | cons kv rest ih =>
    intro h
    have hk : kv.1 ≠ k := by
      intro he
      exact h (by simp [he.symm])
    rw [show kv = (kv.1, kv.2) from rfl, dictInsert, if_neg hk]
    rw [ih (fun hm => h (by simp [hm]))]
    simp

/-- Folding fresh, pairwise-distinct keys into an association list appends
the bindings in order. -/
theorem foldl_dictInsert_fresh :
    ∀ (ps : List (Nat × Event)) (acc : List (String × Nat)),
      (ps.map (fun p => eventKey p.2)).Nodup →
      (∀ p ∈ ps, eventKey p.2 ∉ acc.map Prod.fst) →
      ps.foldl (fun m p => dictInsert (eventKey p.2) p.1 m) acc =
        acc ++ ps.map (fun p => (eventKey p.2, p.1)) := by
  intro ps
  induction ps with
  | nil => intro acc _ _; simp
  | cons p rest ih =>
    intro acc hnd hfresh
    obtain ⟨hph, hpt⟩ := List.pairwise_cons.mp hnd
    rw [List.foldl_cons,
      dictInsert_fresh _ _ acc (hfresh p (List.mem_cons_self _ _)),
      ih (acc ++ [(eventKey p.2, p.1)]) hpt]
    · simp
    · intro q hq
      simp only [List.map_append, List.mem_append, List.map_cons, List.map_nil,
        List.mem_singleton, not_or]
      refine ⟨hfresh q (List.mem_cons_of_mem _ hq), ?_⟩
      intro he
      exact hph (eventKey q.2) (List.mem_map_of_mem _ hq) he.symm

/-- Under pairwise-distinct keys the event identity map is the plain
association of each key with its position. -/
theorem event_id_map_of_nodup (events : List Event)
    (hk : (events.map eventKey).Nodup) :
    event_id_map events = events.enum.map (fun p => (eventKey p.2, p.1)) := by
  have henum : events.enum.map (fun p => eventKey p.2) = events.map eventKey := by
    have h1 : events.enum.map (fun p => eventKey p.2) =
        (events.enum.map Prod.snd).map eventKey := by
      rw [List.map_map]
      rfl
    rw [h1, List.enum_map_snd]
  rw [event_id_map, foldl_dictInsert_fresh events.enum [] (by rw [henum]; exact hk)
    (by intro p _; simp)]
  simp

/-- Association lookup of the position-association list finds the position
of the (under distinct keys, unique) event bearing the key. -/
theorem dictFind_enumFrom (a : Event) :
    ∀ (l : List Event) (n : Nat), (l.map eventKey).Nodup → a ∈ l →
      dictFind (eventKey a) ((List.enumFrom n l).map (fun p => (eventKey p.2, p.1))) =
        some (n + l.findIdx (fun e => decide (e = a))) := by
  intro l
  induction l with
  | nil => intro n _ ha; cases ha
  | cons b rest ih =>
    intro n hnd ha
    obtain ⟨hbh, hbt⟩ := List.pairwise_cons.mp hnd
    by_cases hab : b = a
    · subst hab
      rw [List.enumFrom, List.map_cons, dictFind, if_pos rfl,
        List.findIdx_cons]
      simp
    · have ha' : a ∈ rest := by
        rcases List.mem_cons.mp ha with he | h'
        · exact absurd he.symm hab
        · exact h'
      have hkey : eventKey b ≠ eventKey a := by
        intro he
        exact hbh (eventKey a) (List.mem_map_of_mem _ ha') he
      rw [List.enumFrom, List.map_cons, dictFind, if_neg hkey,
        ih (n + 1) hbt ha', List.findIdx_cons]
      have : (decide (b = a)) = false := by simp [hab]
      rw [this]
      simp only [cond_false]
      exact congrArg some (by omega)

/-- Under pairwise-distinct keys, looking up an ingested event's key in the
identity map recovers the event's own insertion position. -/
theorem dictFind_event_id_map {events : List Event}
    (hk : (events.map eventKey).Nodup) {a : Event} (ha : a ∈ events) :
    dictFind (eventKey a) (event_id_map events) =
      some (events.findIdx (fun e => decide (e = a))) := by
  rw [event_id_map_of_nodup events hk]
  have := dictFind_enumFrom a events 0 hk ha
  simpa using this

/-- A `filterMap` in which every element succeeds is a `map`. -/
theorem filterMap_eq_map_of_forall {α β : Type} (f : α → Option β) (g : α → β) :
    ∀ L : List α, (∀ x ∈ L, f x = some (g x)) → L.filterMap f = L.map g := by
  intro L
  induction L with
  | nil => intro _; rfl
  | cons x rest ih =>
    intro h
    rw [List.filterMap_cons, h x (List.mem_cons_self _ _), List.map_cons,
      ih (fun y hy => h y (List.mem_cons_of_mem _ hy))]

/-- Events of a trace chain come from the ingested event list. -/
theorem mem_of_mem_sortEvents {tid : String} {events : List Event} {a : Event}
    (ha : a ∈ sortEvents (eventsFor tid events)) : a ∈ events := by
  have h1 : a ∈ eventsFor tid events := (List.mem_insertionSort tsLe).mp ha
  exact List.mem_of_mem_filter h1

end LogIngest

/-- Claim C10 (amended): when the parsed events have pairwise-distinct
`traceId_timestamp_service` key strings, the relationships persisted by
`store_to_database` connect exactly the consecutive pairs of each trace's
in-memory temporal chain, each event resolved to its own insertion
identity. -/
theorem store_chain_faithful (events : List LogIngest.Event)
    (hk : (events.map LogIngest.eventKey).Nodup) :
    LogIngest.store_to_database events = LogIngest.chainIndexPairs events := by
  simp only [LogIngest.store_to_database, LogIngest.chainIndexPairs,
    LogIngest.create_temporal_relationships, List.filterMap_flatMap]
  apply List.flatMap_congr
  intro tid _
  rw [LogIngest.chainRels, List.filterMap_map]
  apply LogIngest.filterMap_eq_map_of_forall
  intro p hp
  obtain ⟨a, b⟩ := p
  obtain ⟨ha, hb⟩ := List.of_mem_zip hp
  have ha' : a ∈ events := LogIngest.mem_of_mem_sortEvents ha
  have hb' : b ∈ events :=
    LogIngest.mem_of_mem_sortEvents ((List.tail_sublist _).subset hb)
  show (match dictFind (LogIngest.eventKey a) (LogIngest.event_id_map events),
          dictFind (LogIngest.eventKey b) (LogIngest.event_id_map events) with
    | some x, some y => some (x, y)
    | _, _ => none) =
    some (events.findIdx (fun e => decide (e = a)),
      events.findIdx (fun e => decide (e = b)))
  rw [LogIngest.dictFind_event_id_map hk ha', LogIngest.dictFind_event_id_map hk hb']

/-- Witness for claim C10 (amended): a collision-free three-event ingestion
persists exactly its chain pairs. -/
theorem store_chain_faithful_witness :
    LogIngest.store_to_database Examples.simpleTraceEvents =
      LogIngest.chainIndexPairs Examples.simpleTraceEvents :=
  store_chain_faithful Examples.simpleTraceEvents (by decide)

/-- Counterexample for claim C10 as stated: three events with
pairwise-distinct (traceId, timestamp, service) triples whose underscore-
joined key strings collide; the persisted relationship (2, 1) resolves the
chain source to the colliding event of the other trace instead of the chain
pair (0, 1). -/
theorem store_key_collision_counterexample :
    List.Pairwise (fun a b : LogIngest.Event =>
        ¬(a.traceId = b.traceId ∧ a.timestamp = b.timestamp ∧ a.service = b.service))
      Examples.collisionEvents ∧
    LogIngest.store_to_database Examples.collisionEvents = [(2, 1)] ∧
    LogIngest.chainIndexPairs Examples.collisionEvents = [(0, 1)] ∧
    LogIngest.store_to_database Examples.collisionEvents ≠
      LogIngest.chainIndexPairs Examples.collisionEvents := by
  decide

/-- A fold preserves any invariant its step preserves. -/
theorem foldl_preserve {σ α : Type} {P : σ → Prop} (step : σ → α → σ)
    (h : ∀ s n, P s → P (step s n)) :
    ∀ (l : List α) (s : σ), P s → P (l.foldl step s) := by
  intro l
  induction l with
  | nil => intro s hs; exact hs
  | cons a rest ih => intro s hs; exact ih (step s a) (h s a hs)

/-- Membership after a dict insertion: the new binding or an old one. -/
theorem dictInsert_mem {α : Type} [DecidableEq α] {β : Type} (k : α) (v : β) :
    ∀ (m : List (α × β)) (kv : α × β), kv ∈ dictInsert k v m → kv = (k, v) ∨ kv ∈ m := by
  intro m
  induction m with
  | nil =>
    intro kv h
    rcases List.mem_cons.mp h with he | h'
    · exact Or.inl he
    · cases h'
  | cons p rest ih =>
    intro kv h
    rw [show p = (p.1, p.2) from rfl, dictInsert] at h
    by_cases hp : p.1 = k
    · rw [if_pos hp] at h
      rcases List.mem_cons.mp h with he | h'
      · exact Or.inl he
      · exact Or.inr (List.mem_cons_of_mem _ h')
    · rw [if_neg hp] at h
      rcases List.mem_cons.mp h with he | h'
      · exact Or.inr (he ▸ List.mem_cons_self _ _)
      · rcases ih kv h' with he | hm
        · exact Or.inl he
        · exact Or.inr (List.mem_cons_of_mem _ hm)

/-- A successful dict lookup is a member of the association list. -/
theorem dictFind_mem {α : Type} [DecidableEq α] {β : Type} (k : α) :
    ∀ (m : List (α × β)) (v : β), dictFind k m = some v → (k, v) ∈ m := by
  intro m
  induction m with
  | nil => intro v h; cases h
  | cons p rest ih =>
    intro v h
    rw [show p = (p.1, p.2) from rfl, dictFind] at h
    by_cases hp : p.1 = k
    · rw [if_pos hp] at h
      cases h
      exact hp ▸ List.mem_cons_self _ _
    · rw [if_neg hp] at h
      exact List.mem_cons_of_mem _ (ih v h)

namespace CodeGraph

/-- The sanitizer only keeps relationships of its input. -/
theorem cleanupAux_subset {valid : List String} :
    ∀ (rels : List Rel) (seen) (r : Rel), r ∈ cleanupAux valid rels seen → r ∈ rels := by
  intro rels
  induction rels with
  | nil => intro seen r h; cases h
  | cons a rest ih =>
    intro seen r h
    by_cases hp : passesFilters valid a = true
    · by_cases hk : relKey a ∈ seen
      · rw [cleanupAux, if_pos hp, if_pos hk] at h
        exact List.mem_cons_of_mem _ (ih seen r h)
      · rw [cleanupAux, if_pos hp, if_neg hk] at h
        rcases List.mem_cons.mp h with rfl | h'
        · exact List.mem_cons_self _ _
        · exact List.mem_cons_of_mem _ (ih _ r h')
    · rw [cleanupAux, if_neg hp] at h
      exact List.mem_cons_of_mem _ (ih seen r h)

/-- Valid CALLS targets are names of extracted nodes. -/
theorem validFunctionNames_subset {nodes : List CodeNode} {t : String}
    (h : t ∈ validFunctionNames nodes) : t ∈ nodeNames nodes := by
  obtain ⟨n, hn, rfl⟩ := List.mem_map.mp h
  exact List.mem_map_of_mem _ (List.mem_of_mem_filter hn)

/-- Fields of the relationships emitted by `extract_local_calls`. -/
theorem localCallsFrom_fields (src svc : String) :
    ∀ (l : List PyAst) (k : Nat) (r : Rel), r ∈ localCallsFrom src svc l k →
      r.relationshipType = "CALLS" ∧ r.sourceType = "function" ∧ r.sourceName = src := by
  intro l
  induction l with
  | nil => intro k r h; cases h
  | cons n rest ih =>
    intro k r h
    cases hce : callEmit n with
    | none =>
      rw [localCallsFrom, hce] at h
      exact ih k r h
    | some p =>
      rw [localCallsFrom, hce] at h
      rcases List.mem_cons.mp h with rfl | h'
      · exact ⟨rfl, rfl, rfl⟩
      · exact ih (k + 1) r h'

/-- Fields of the relationships emitted by `extract_api_calls`: in
particular the target is still unresolved. -/
theorem apiCallsFrom_fields (src svc : String) (urls : List (String × String)) :
    ∀ (l : List PyAst) (k : Nat) (r : Rel), r ∈ apiCallsFrom src svc urls l k →
      r.relationshipType = "API_CALLS" ∧ r.sourceType = "function" ∧
        r.sourceName = src ∧ r.targetName = none := by
  intro l
  induction l with
  | nil => intro k r h; cases h
  | cons n rest ih =>
    intro k r h
    by_cases hcs : isCallServiceCall n = true
    · rw [apiCallsFrom, if_pos hcs] at h
      cases hae : apiEmit urls n with
      | none =>
        rw [hae] at h
        exact ih (k + 1) r h
      | some q =>
        rw [hae] at h
        rcases List.mem_cons.mp h with rfl | h'
        · exact ⟨rfl, rfl, rfl, rfl⟩
        · exact ih (k + 1) r h'
    · rw [apiCallsFrom, if_neg hcs] at h
      exact ih k r h

/-- Appending a node preserves the referential invariant (the name set only
grows). -/
theorem append_node_wf {st : ParserState} (node : CodeNode) (h : StateWF st) :
    StateWF { st with codeNodes := st.codeNodes ++ [node] } := by
  obtain ⟨h1, h2, h3⟩ := h
  have hmono : ∀ t, t ∈ nodeNames st.codeNodes → t ∈ nodeNames (st.codeNodes ++ [node]) := by
    intro t ht
    rw [nodeNames, List.map_append]
    exact List.mem_append_left _ ht
  refine ⟨?_, ?_, ?_⟩
  · intro r hr t htn
    rcases h1 r hr t htn with hc | hm
    · exact Or.inl hc
    · exact Or.inr (hmono t hm)
  · intro r hr
    rcases h2 r hr with hc | hm
    · exact Or.inl hc
    · exact Or.inr (hmono _ hm)
  · intro kv hkv
    exact hmono _ (h3 kv hkv)

/-- Registering an endpoint (and its EXPOSES relationship) preserves the
referential invariant, provided the exposed function is a node name. -/
theorem registerEndpoint_wf {st : ParserState} (ad : Option String × Option String)
    (fullName codeType serviceName : String) (h : StateWF st)
    (hf : fullName ∈ nodeNames st.codeNodes) :
    StateWF (registerEndpoint st ad fullName codeType serviceName) := by
  obtain ⟨h1, h2, h3⟩ := h
  cases had : ad.2 with
  | none => simp only [registerEndpoint, had]; exact ⟨h1, h2, h3⟩
  | some e =>
    simp only [registerEndpoint, had]
    by_cases he : e ≠ ""
    · rw [if_pos he]
      refine ⟨?_, ?_, ?_⟩
      · intro r hr t htn
        rcases List.mem_append.mp hr with hold | hnew
        · exact h1 r hold t htn
        · rcases List.mem_singleton.mp hnew with rfl
          cases htn
          exact Or.inr hf
      · intro r hr
        rcases List.mem_append.mp hr with hold | hnew
        · exact h2 r hold
        · rcases List.mem_singleton.mp hnew with rfl
          exact Or.inl rfl
      · intro kv hkv
        rcases dictInsert_mem _ _ _ kv hkv with rfl | hold
        · exact hf
        · exact h3 kv hold
    · rw [if_neg he]
      exact ⟨h1, h2, h3⟩

/-- `registerEndpoint` does not change the node list. -/
theorem registerEndpoint_nodes (st : ParserState) (ad : Option String × Option String)
    (fullName codeType serviceName : String) :
    (registerEndpoint st ad fullName codeType serviceName).codeNodes = st.codeNodes := by
  cases had : ad.2 with
  | none => simp only [registerEndpoint, had]
  | some e =>
    simp only [registerEndpoint, had]
    by_cases he : e ≠ ""
    · rw [if_pos he]
    · rw [if_neg he]

/-- Appending relationships whose targets and sources satisfy the
invariant preserves it. -/
theorem append_rels_wf {st : ParserState} (newRels : List Rel) (h : StateWF st)
    (hnew : ∀ r ∈ newRels,
      (∀ t, r.targetName = some t →
        r.relationshipType = "CALLS" ∨ t ∈ nodeNames st.codeNodes) ∧
      (r.sourceType = "endpoint" ∨ r.sourceName ∈ nodeNames st.codeNodes)) :
    StateWF { st with relationships := st.relationships ++ newRels } := by
  obtain ⟨h1, h2, h3⟩ := h
  refine ⟨?_, ?_, h3⟩
  · intro r hr t htn
    rcases List.mem_append.mp hr with hold | hn
    · exact h1 r hold t htn
    · exact (hnew r hn).1 t htn
  · intro r hr
    rcases List.mem_append.mp hr with hold | hn
    · exact h2 r hold
    · exact (hnew r hn).2

/-- `extract_function` preserves the referential invariant. -/
theorem extract_function_wf (fd : PyAst) (filepath serviceName : String)
    (className : Option String) {st : ParserState} (h : StateWF st) :
    StateWF (extract_function st fd filepath serviceName className) := by
  cases fd with
  | functionDef fname params body decorators =>
    simp only [extract_function]
    by_cases hskip : fname ∈ skipFunctions
    · rw [if_pos hskip]; exact h
    · rw [if_neg hskip]
      refine append_rels_wf _ (append_rels_wf _ (registerEndpoint_wf _ _ _ _
        (append_node_wf _ h) ?_) ?_) ?_
      · rw [nodeNames, List.map_append]
        exact List.mem_append_right _ (List.mem_singleton.mpr rfl)
      · intro r hr
        obtain ⟨hty, hsty, hsrc⟩ := localCallsFrom_fields _ _ _ _ r hr
        refine ⟨fun t _ => Or.inl hty, Or.inr ?_⟩
        rw [hsrc, registerEndpoint_nodes, nodeNames, List.map_append]
        exact List.mem_append_right _ (List.mem_singleton.mpr rfl)
      · intro r hr
        obtain ⟨hty, hsty, hsrc, htgt⟩ := apiCallsFrom_fields _ _ _ _ _ r hr
        refine ⟨fun t hts => ?_, Or.inr ?_⟩
        · rw [htgt] at hts; cases hts
        · rw [hsrc, registerEndpoint_nodes, nodeNames, List.map_append]
          exact List.mem_append_right _ (List.mem_singleton.mpr rfl)
  | module body => exact h
  | classDef a b c => exact h
  | assign a b => exact h
  | exprStmt a => exact h
  | ret a => exact h
  | call a b c => exact h
  | pyName a => exact h
  | pyAttribute a b => exact h
  | strConst a => exact h
  | joinedStr a => exact h
  | formattedValue a => exact h
  | binOpAdd a b => exact h

/-- `extract_class` preserves the referential invariant. -/
theorem extract_class_wf (cd : PyAst) (filepath serviceName : String)
    {st : ParserState} (h : StateWF st) :
    StateWF (extract_class st cd filepath serviceName) := by
  cases cd with
  | classDef cname bases body => exact append_node_wf _ h
  | module body => exact h
  | functionDef a b c d => exact h
  | assign a b => exact h
  | exprStmt a => exact h
  | ret a => exact h
  | call a b c => exact h
  | pyName a => exact h
  | pyAttribute a b => exact h
  | strConst a => exact h
  | joinedStr a => exact h
  | formattedValue a => exact h
  | binOpAdd a b => exact h

/-- `parse_file` preserves the referential invariant. -/
theorem parse_file_wf (tree : PyAst) (filepath serviceName : String)
    {st : ParserState} (h : StateWF st) :
    StateWF (parse_file st tree filepath serviceName) := by
  rw [parse_file]
  apply foldl_preserve
  · intro s n hs
    cases n with
    | functionDef a b c d => exact extract_function_wf _ _ _ _ hs
    | classDef cname bases body =>
      simp only [fileStep]
      by_cases hsk : shouldSkipClass cname bases = true
      · rw [if_pos hsk]; exact hs
      · rw [if_neg hsk]; exact extract_class_wf _ _ _ hs
    | module body => exact hs
    | assign a b => exact hs
    | exprStmt a => exact hs
    | ret a => exact hs
    | call a b c => exact hs
    | pyName a => exact hs
    | pyAttribute a b => exact hs
    | strConst a => exact hs
    | joinedStr a => exact hs
    | formattedValue a => exact hs
    | binOpAdd a b => exact hs
  · exact h

/-- A registry hit names the looked-up endpoint's registry entry. -/
theorem endpointHit_some {registry : List (String × EndpointInfo)} {r : Rel}
    {e : String} {info : EndpointInfo}
    (h : endpointHit registry r = some (e, info)) :
    dictFind e registry = some info := by
  cases he : r.endpoint with
  | none => rw [endpointHit, he] at h; cases h
  | some e' =>
    simp only [endpointHit, he] at h
    by_cases hne : e' ≠ ""
    · rw [if_pos hne] at h
      cases hf : dictFind e' registry with
      | none => rw [hf] at h; cases h
      | some i =>
        rw [hf] at h
        simp only [Option.map_some', Option.some.injEq, Prod.mk.injEq] at h
        obtain ⟨he2, hi⟩ := h
        rw [← he2, hf, hi]
    · rw [if_neg hne] at h; cases h

/-- Case analysis of the resolver rewrite: unchanged, or rewritten from a
registry entry. -/
theorem resolveRel_cases (registry : List (String × EndpointInfo)) (r : Rel) :
    resolveRel registry r = r ∨
      ∃ e info, dictFind e registry = some info ∧
        resolveRel registry r =
          { r with
            targetName := some info.function
            targetService := some info.service
            description := r.sourceName ++ " calls " ++ e ++ " -> " ++ info.function } := by
  rw [resolveRel]
  by_cases ht : r.relationshipType = "API_CALLS"
  · rw [if_pos ht]
    cases hh : endpointHit registry r with
    | none => exact Or.inl rfl
    | some p =>
      obtain ⟨e, info⟩ := p
      exact Or.inr ⟨e, info, endpointHit_some hh, rfl⟩
  · rw [if_neg ht]
    exact Or.inl rfl

/-- The cross-service resolver pass preserves the referential invariant;
moreover after it every API_CALLS target that is present is a node name. -/
theorem map_api_wf {st : ParserState} (h : StateWF st) :
    StateWF { st with
      relationships := map_api_calls_to_endpoints st.apiEndpoints st.relationships } := by
  obtain ⟨h1, h2, h3⟩ := h
  refine ⟨?_, ?_, h3⟩
  · intro r' hr' t htn
    obtain ⟨r, hr, rfl⟩ := List.mem_map.mp hr'
    rcases resolveRel_cases st.apiEndpoints r with heq | ⟨e, info, hfind, heq⟩
    · rw [heq] at htn ⊢
      exact h1 r hr t htn
    · rw [heq] at htn ⊢
      cases htn
      exact Or.inr (h3 (e, info) (dictFind_mem _ _ _ hfind))
  · intro r' hr'
    obtain ⟨r, hr, rfl⟩ := List.mem_map.mp hr'
    rcases resolveRel_cases st.apiEndpoints r with heq | ⟨e, info, _, heq⟩
    · rw [heq]; exact h2 r hr
    · rw [heq]; exact h2 r hr

end CodeGraph

/-- Claim C3 (amended): after the full pipeline (extraction, resolver,
sanitizer), every retained relationship has a present target name that
names an extracted node, and every retained relationship that is not
sourced at a synthetic endpoint (i.e. is not an EXPOSES relationship) has a
source name that names an extracted node.  EXPOSES sources are endpoint
paths that never correspond to extracted nodes (the validator exempts
them); the original claim fails on them. -/
theorem sanitizer_referential_integrity (files : List CodeGraph.SourceFile) :
    ∀ r ∈ (CodeGraph.parse_project files).relationships,
      (∃ t, r.targetName = some t ∧
        t ∈ CodeGraph.nodeNames (CodeGraph.parse_project files).codeNodes) ∧
      (r.sourceType = "endpoint" ∨
        r.sourceName ∈ CodeGraph.nodeNames (CodeGraph.parse_project files).codeNodes) := by
  intro r hr
  have hwf0 : CodeGraph.StateWF {} := by
    refine ⟨?_, ?_, ?_⟩ <;> intro x hx <;> cases hx
  have hwf1 : CodeGraph.StateWF
      (files.foldl (fun s f => CodeGraph.parse_file s f.tree f.filePath f.serviceName) {}) := by
    apply foldl_preserve
    · intro s f hs
      exact CodeGraph.parse_file_wf f.tree f.filePath f.serviceName hs
    · exact hwf0
  have hwf2 := CodeGraph.map_api_wf hwf1
  set st := files.foldl (fun s f => CodeGraph.parse_file s f.tree f.filePath f.serviceName) {}
  set st1 : CodeGraph.ParserState := { st with
    relationships := CodeGraph.map_api_calls_to_endpoints st.apiEndpoints st.relationships }
  have hrr : r ∈ CodeGraph.cleanup_relationships st1.codeNodes st1.relationships := hr
  have hsub : r ∈ st1.relationships := CodeGraph.cleanupAux_subset _ _ r hrr
  have hpass := CodeGraph.mem_cleanupAux_passes hrr
  obtain ⟨h1, h2, _⟩ := hwf2
  have hnodes : (CodeGraph.parse_project files).codeNodes = st1.codeNodes := rfl
  cases htn : r.targetName with
  | none => simp [CodeGraph.passesFilters, htn] at hpass
  | some t =>
    simp only [CodeGraph.passesFilters, htn, decide_eq_true_eq] at hpass
    obtain ⟨hne, hutil, hcalls⟩ := hpass
    refine ⟨⟨t, rfl, ?_⟩, ?_⟩
    · rw [hnodes]
      by_cases hty : r.relationshipType = "CALLS"
      · by_cases hv : t ∈ CodeGraph.validFunctionNames st1.codeNodes
        · exact CodeGraph.validFunctionNames_subset hv
        · exact absurd ⟨hty, hv⟩ hcalls
      · rcases h1 r hsub t htn with hc | hm
        · exact absurd hc hty
        · exact hm
    · rw [hnodes]
      exact h2 r hsub

/-- Witness for claim C3 (amended): on the two-service run, the retained
EXPOSES relationship has target `assess_risk`, a node name, and is sourced
at a synthetic endpoint. -/
theorem sanitizer_referential_integrity_witness :
    (∃ t, (CodeGraph.mkExposesRel "/assess" "assess_risk" "function" "risk_service").targetName =
        some t ∧
      t ∈ CodeGraph.nodeNames
        (CodeGraph.parse_project Examples.crossServiceFiles).codeNodes) ∧
    ((CodeGraph.mkExposesRel "/assess" "assess_risk" "function" "risk_service").sourceType =
        "endpoint" ∨
      (CodeGraph.mkExposesRel "/assess" "assess_risk" "function" "risk_service").sourceName ∈
        CodeGraph.nodeNames (CodeGraph.parse_project Examples.crossServiceFiles).codeNodes) :=
  sanitizer_referential_integrity Examples.crossServiceFiles
    (CodeGraph.mkExposesRel "/assess" "assess_risk" "function" "risk_service") (by decide)
